import Mathlib

/-!
Shallow embedding of the Veridian hold'em showdown core: the 5-card hand
evaluator of `solana/encrypted-ixs/src/hand_eval.rs` and the copy of it
inlined in the `determine_winner` circuit of
`solana/encrypted-ixs/src/lib.rs`, together with `find_best_hand_from_seven`
and `determine_winner`, a declarative reference model written from the
specification, and proofs relating the code to the reference.

Cards are naturals in `[0, 52)`; `rank = card / 4`, `suit = card % 4`.
The fixed-size `u8`/`u16`/`u64` arrays and scalars of the source are
modelled as `List Nat` and `Nat`: every value involved stays far below the
respective modulus (ranks are below 13, packed buckets below `5*256+13`,
scores below `2^24`), so `Nat` arithmetic coincides with the machine
arithmetic of the source.  The one subtraction, `ranks[0] - ranks[4]`, is
applied to a descending-sorted array, where `u8` and truncated `Nat`
subtraction agree.

Array indexing is modelled two ways: the plain functions use the total
`List.getD`/`List.set` semantics, in which an out-of-range read yields the
default and an out-of-range write is a no-op (this is the arithmetic
multiplexer reading of the circuit code); the `...Checked` variants return
`Option` and fail on any out-of-range access of the kicker-expansion
arrays, which is Rust's bounds-checked indexing semantics.
-/

/-- Rank of a card: `card / 4` (0 = Two, …, 12 = Ace). -/
def rankOf (c : Nat) : Nat := c / 4

/-- Suit of a card: `card % 4`. -/
def suitOf (c : Nat) : Nat := c % 4

/-- Insert a value into a descending-sorted list. -/
def insertDesc (x : Nat) : List Nat → List Nat
  | [] => [x]
  | y :: ys => if y ≤ x then x :: y :: ys else y :: insertDesc x ys

/-- Descending insertion sort, modelling the source's
`ranks.sort(); ranks.reverse();` (on `Nat` every correct sort computes the
same function, the unique descending-sorted permutation). -/
def sortDesc : List Nat → List Nat
  | [] => []
  | x :: xs => insertDesc x (sortDesc xs)

/-- The raw (unsorted) rank list of a hand. -/
def handRanks (hand : List Nat) : List Nat := hand.map rankOf

/-- `is_flush`: all five suits equal, each compared against `suits[0]`
exactly as in the source. -/
def isFlush (hand : List Nat) : Bool :=
  let suits := hand.map suitOf
  (suits.getD 0 0 == suits.getD 1 0) && (suits.getD 0 0 == suits.getD 2 0) &&
    (suits.getD 0 0 == suits.getD 3 0) && (suits.getD 0 0 == suits.getD 4 0)

/-- `is_straight_gapped` over the descending-sorted ranks:
`ranks[0] - ranks[4] == 4` and adjacent ranks pairwise distinct. -/
def isStraightGapped (ranks : List Nat) : Bool :=
  (ranks.getD 0 0 - ranks.getD 4 0 == 4) && !(ranks.getD 0 0 == ranks.getD 1 0) &&
    !(ranks.getD 1 0 == ranks.getD 2 0) && !(ranks.getD 2 0 == ranks.getD 3 0) &&
    !(ranks.getD 3 0 == ranks.getD 4 0)

/-- `is_wheel`: the sorted ranks are exactly `[Ace,5,4,3,2] = [12,3,2,1,0]`. -/
def isWheel (ranks : List Nat) : Bool :=
  (ranks.getD 0 0 == 12) && (ranks.getD 1 0 == 3) && (ranks.getD 2 0 == 2) &&
    (ranks.getD 3 0 == 1) && (ranks.getD 4 0 == 0)

/-- `is_straight = is_straight_gapped | is_wheel`. -/
def isStraight (ranks : List Nat) : Bool := isStraightGapped ranks || isWheel ranks

/-- Number of histogram buckets whose count equals `k`: the source folds
`(count == k) as u8` over the 13 buckets of `rank_counts`, and the count of
rank `r` among the five ranks is `ranks.count r`. -/
def numWithCount (ranks : List Nat) (k : Nat) : Nat :=
  ((List.range 13).filter (fun r => ranks.count r == k)).length

/-- `is_four_of_a_kind = num_quads == 1`. -/
def isFourOfAKind (ranks : List Nat) : Bool := numWithCount ranks 4 == 1

/-- `is_full_house = (num_trips == 1) & (num_pairs == 1)`. -/
def isFullHouse (ranks : List Nat) : Bool :=
  (numWithCount ranks 3 == 1) && (numWithCount ranks 2 == 1)

/-- `is_three_of_a_kind = (num_trips == 1) & (num_pairs == 0)`. -/
def isThreeOfAKind (ranks : List Nat) : Bool :=
  (numWithCount ranks 3 == 1) && (numWithCount ranks 2 == 0)

/-- `is_two_pair = num_pairs == 2`. -/
def isTwoPair (ranks : List Nat) : Bool := numWithCount ranks 2 == 2

/-- `is_one_pair = (num_pairs == 1) & (num_trips == 0)`. -/
def isOnePair (ranks : List Nat) : Bool :=
  (numWithCount ranks 2 == 1) && (numWithCount ranks 3 == 0)

/-- The category sum of step 5 as a function of the seven feature flags
(`is_straight`, `is_four_of_a_kind`, `is_full_house`, `is_three_of_a_kind`,
`is_two_pair`, `is_one_pair`, `is_flush`), summed as
`indicator * rank_constant` exactly as in the source. -/
def hrSum (st q fh t3 p2 p1 flush : Bool) : Nat :=
  let sf := st && flush
  sf.toNat * 8
    + (!sf && q).toNat * 7
    + (!sf && !q && fh).toNat * 6
    + (!sf && !q && !fh && flush).toNat * 5
    + (!sf && !q && !fh && !flush && st).toNat * 4
    + (!st && !flush && t3).toNat * 3
    + (!st && !flush && !t3 && p2).toNat * 2
    + (!st && !flush && !t3 && !p2 && p1).toNat * 1
    + (!st && !flush && !p1 && !p2 && !t3 && !fh && !q).toNat * 0

/-- Step 5 of `evaluate_hand`: the chain of mutually exclusive category
terms applied to the hand's feature flags. -/
def handRankOf (ranks : List Nat) (flush : Bool) : Nat :=
  hrSum (isStraight ranks) (isFourOfAKind ranks) (isFullHouse ranks)
    (isThreeOfAKind ranks) (isTwoPair ranks) (isOnePair ranks) flush

/-- The nine exclusive category indicators of step 5 as a function of the
seven feature flags, in priority order from straight-flush to high-card. -/
def indList (st q fh t3 p2 p1 flush : Bool) : List Bool :=
  let sf := st && flush
  [sf,
   !sf && q,
   !sf && !q && fh,
   !sf && !q && !fh && flush,
   !sf && !q && !fh && !flush && st,
   !st && !flush && t3,
   !st && !flush && !t3 && p2,
   !st && !flush && !t3 && !p2 && p1,
   !st && !flush && !p1 && !p2 && !t3 && !fh && !q]

/-- The nine exclusive category indicators of a hand. -/
def codeIndicators (ranks : List Nat) (flush : Bool) : List Bool :=
  indList (isStraight ranks) (isFourOfAKind ranks) (isFullHouse ranks)
    (isThreeOfAKind ranks) (isTwoPair ranks) (isOnePair ranks) flush

/-- Step 6: pack each bucket as `count * 256 + rank` and sort descending. -/
def packedRanks (ranks : List Nat) : List Nat :=
  sortDesc ((List.range 13).map (fun i => ranks.count i * 256 + i))

/-- One guarded write of the `hand_eval.rs` kicker expansion:
`if kicker_idx < 5 { ordered_kickers[kicker_idx] = rank; kicker_idx += 1; }`. -/
def guardedPush (rank : Nat) (st : List Nat × Nat) : List Nat × Nat :=
  if st.2 < 5 then (st.1.set st.2 rank, st.2 + 1) else st

/-- The `hand_eval.rs` kicker expansion: for each packed bucket run the
guarded write `count` times (the data-dependent `for _ in 0..count`). -/
def expandKickers (packed : List Nat) : List Nat :=
  (packed.foldl (fun st p => (guardedPush (p % 256))^[p / 256] st) ([0, 0, 0, 0, 0], 0)).1

/-- The wheel-override multiplexer
`(is_wheel * wheel_override[i]) + (!is_wheel * ordered_kickers[i])`,
with `wheel_kicker_override = [5,4,3,2,Ace] = [3,2,1,0,12]`. -/
def wheelMux (w : Bool) (ks : List Nat) : List Nat :=
  (List.range 5).map (fun i => w.toNat * ([3, 2, 1, 0, 12].getD i 0) + (!w).toNat * ks.getD i 0)

/-- The ordered kickers computed by `hand_eval.rs` (steps 6 plus the wheel
override of the source). -/
def codeKickers (ranks : List Nat) : List Nat :=
  wheelMux (isWheel ranks) (expandKickers (packedRanks ranks))

/-- Step 7 of `hand_eval.rs`: assemble the score with shifts and ors. -/
def assembleScore (hr : Nat) (ks : List Nat) : Nat :=
  (((((hr <<< 20) ||| (ks.getD 0 0 <<< 16)) ||| (ks.getD 1 0 <<< 12)) |||
      (ks.getD 2 0 <<< 8)) ||| (ks.getD 3 0 <<< 4)) ||| ks.getD 4 0

/-- Steps 2-7 of `evaluate_hand`, as a function of the descending-sorted
rank array and the flush flag (after step 1 the source uses the hand only
through these two values). -/
def evalFromSorted (ranks : List Nat) (flush : Bool) : Nat :=
  assembleScore (handRankOf ranks flush) (codeKickers ranks)

/-- `evaluate_hand` of `hand_eval.rs`. -/
def evaluate_hand (hand : List Nat) : Nat :=
  evalFromSorted (sortDesc (handRanks hand)) (isFlush hand)

/-- One unrolled multiplexed write (`should_add_k`) of the circuit kicker
expansion, in the total `List.set`/`List.getD` semantics (out-of-range
write is a no-op, out-of-range read yields the default). -/
def circStep (p k : Nat) (st : List Nat × Nat) : List Nat × Nat :=
  let c := p / 256
  let r := p % 256
  let should := decide (k < c) && decide (st.2 < 5)
  (st.1.set st.2 (should.toNat * r + (!should).toNat * st.1.getD st.2 0),
   st.2 + should.toNat)

/-- One bucket of the circuit kicker expansion: the five unrolled steps
`should_add_0` through `should_add_4`. -/
def circBucket (st : List Nat × Nat) (p : Nat) : List Nat × Nat :=
  circStep p 4 (circStep p 3 (circStep p 2 (circStep p 1 (circStep p 0 st))))

/-- The circuit kicker expansion over the 13 packed buckets. -/
def circExpandKickers (packed : List Nat) : List Nat :=
  (packed.foldl circBucket ([0, 0, 0, 0, 0], 0)).1

/-- The ordered kickers computed by the circuit copy. -/
def circKickers (ranks : List Nat) : List Nat :=
  wheelMux (isWheel ranks) (circExpandKickers (packedRanks ranks))

/-- Step 7 of the circuit copy: assemble the score with multiplications. -/
def assembleScoreMul (hr : Nat) (ks : List Nat) : Nat :=
  hr * 1048576 + ks.getD 0 0 * 65536 + ks.getD 1 0 * 4096 + ks.getD 2 0 * 256 +
    ks.getD 3 0 * 16 + ks.getD 4 0 * 1

/-- Steps 2-7 of the circuit copy of `evaluate_hand`. -/
def evalCircuitFromSorted (ranks : List Nat) (flush : Bool) : Nat :=
  assembleScoreMul (handRankOf ranks flush) (circKickers ranks)

/-- The copy of `evaluate_hand` inlined in the `determine_winner` circuit
of `lib.rs`. -/
def evaluate_hand_circuit (hand : List Nat) : Nat :=
  evalCircuitFromSorted (sortDesc (handRanks hand)) (isFlush hand)

/-- Bounds-checked array write, modelling Rust's panicking indexing. -/
def writeChecked (l : List Nat) (i v : Nat) : Option (List Nat) :=
  if i < l.length then some (l.set i v) else none

/-- Checked variant of one circuit expansion step: the source evaluates
`ordered_kickers[kicker_idx]` unconditionally (also when `should_add` is
false), so the access is bounds-checked unconditionally here. -/
def circStepChecked (p k : Nat) (st : Option (List Nat × Nat)) : Option (List Nat × Nat) :=
  st.bind (fun s =>
    let c := p / 256
    let r := p % 256
    let should := decide (k < c) && decide (s.2 < 5)
    (writeChecked s.1 s.2 (should.toNat * r + (!should).toNat * s.1.getD s.2 0)).map
      (fun l => (l, s.2 + should.toNat)))

/-- One bucket of the checked circuit kicker expansion. -/
def circBucketChecked (st : Option (List Nat × Nat)) (p : Nat) : Option (List Nat × Nat) :=
  circStepChecked p 4 (circStepChecked p 3 (circStepChecked p 2
    (circStepChecked p 1 (circStepChecked p 0 st))))

/-- The checked circuit kicker expansion over the 13 packed buckets. -/
def circExpandKickersChecked (packed : List Nat) : Option (List Nat) :=
  (packed.foldl circBucketChecked (some ([0, 0, 0, 0, 0], 0))).map (fun st => st.1)

/-- The circuit copy of `evaluate_hand` under Rust's bounds-checked
indexing of the kicker-expansion array. -/
def evaluate_hand_circuit_checked (hand : List Nat) : Option Nat :=
  let ranks := sortDesc (handRanks hand)
  (circExpandKickersChecked (packedRanks ranks)).map
    (fun ks => assembleScoreMul (handRankOf ranks (isFlush hand)) (wheelMux (isWheel ranks) ks))

/-- Checked variant of the guarded `hand_eval.rs` expansion step: here the
array access only happens under the `kicker_idx < 5` guard, as in the
source. -/
def guardedPushChecked (rank : Nat) (st : Option (List Nat × Nat)) : Option (List Nat × Nat) :=
  st.bind (fun s =>
    if s.2 < 5 then (writeChecked s.1 s.2 rank).map (fun l => (l, s.2 + 1)) else some s)

/-- The checked `hand_eval.rs` kicker expansion. -/
def expandKickersChecked (packed : List Nat) : Option (List Nat) :=
  (packed.foldl (fun st p => (guardedPushChecked (p % 256))^[p / 256] st)
    (some ([0, 0, 0, 0, 0], 0))).map (fun st => st.1)

/-- `evaluate_hand` of `hand_eval.rs` under Rust's bounds-checked indexing
of the kicker-expansion array. -/
def evaluate_hand_checked (hand : List Nat) : Option Nat :=
  let ranks := sortDesc (handRanks hand)
  (expandKickersChecked (packedRanks ranks)).map
    (fun ks => assembleScore (handRankOf ranks (isFlush hand)) (wheelMux (isWheel ranks) ks))

/-- The constant 21-row index table of `find_best_hand_from_seven`. -/
def COMBINATIONS : List (List Nat) :=
  [[0, 1, 2, 3, 4], [0, 1, 2, 3, 5], [0, 1, 2, 3, 6], [0, 1, 2, 4, 5], [0, 1, 2, 4, 6],
   [0, 1, 2, 5, 6], [0, 1, 3, 4, 5], [0, 1, 3, 4, 6], [0, 1, 3, 5, 6], [0, 1, 4, 5, 6],
   [0, 2, 3, 4, 5], [0, 2, 3, 4, 6], [0, 2, 3, 5, 6], [0, 2, 4, 5, 6], [0, 3, 4, 5, 6],
   [1, 2, 3, 4, 5], [1, 2, 3, 4, 6], [1, 2, 3, 5, 6], [1, 2, 4, 5, 6], [1, 3, 4, 5, 6],
   [2, 3, 4, 5, 6]]

/-- `current_hand[j] = seven_cards[combo[j]]`. -/
def selectHand (seven combo : List Nat) : List Nat :=
  combo.map (fun i => seven.getD i 0)

/-- `find_best_hand_from_seven`: branch-free running maximum over the 21
fixed 5-card selections, folded with the arithmetic multiplexer
`(is_greater * score) + (!is_greater * max_score)`. -/
def find_best_hand_from_seven (seven : List Nat) : Nat :=
  COMBINATIONS.foldl
    (fun maxScore combo =>
      let score := evaluate_hand_circuit (selectHand seven combo)
      let isGreater := decide (maxScore < score)
      isGreater.toNat * score + (!isGreater).toNat * maxScore) 0

/-- Concatenation of two hole cards with the five board cards. -/
def sevenCards (hole board : List Nat) : List Nat :=
  [hole.getD 0 0, hole.getD 1 0, board.getD 0 0, board.getD 1 0, board.getD 2 0,
   board.getD 3 0, board.getD 4 0]

/-- `determine_winner`: the ternary multiplexer
`(p1_wins * 0) + (p2_wins * 1) + ((!p1_wins & !p2_wins) * 2)`. -/
def determine_winner (p1 p2 board : List Nat) : Nat :=
  let s1 := find_best_hand_from_seven (sevenCards p1 board)
  let s2 := find_best_hand_from_seven (sevenCards p2 board)
  let p1Wins := decide (s2 < s1)
  let p2Wins := decide (s1 < s2)
  p1Wins.toNat * 0 + p2Wins.toNat * 1 + (!p1Wins && !p2Wins).toNat * 2

/-- The three multiplexer guards of `determine_winner`, in source order:
player 1 wins, player 2 wins, tie. -/
def winnerFlags (p1 p2 board : List Nat) : List Bool :=
  let s1 := find_best_hand_from_seven (sevenCards p1 board)
  let s2 := find_best_hand_from_seven (sevenCards p2 board)
  [decide (s2 < s1), decide (s1 < s2), !decide (s2 < s1) && !decide (s1 < s2)]

/-- Reference model, from the specification: a flush means all five suits
are equal. -/
def specFlush (hand : List Nat) : Bool :=
  (hand.map suitOf).all (fun s => s == (hand.map suitOf).getD 0 0)

/-- Largest rank of the hand (reference model). -/
def specMaxRank (rs : List Nat) : Nat := rs.foldr max 0

/-- Smallest rank of the hand (reference model). -/
def specMinRank (rs : List Nat) : Nat := rs.foldr min 12

/-- Boolean no-duplicates test. -/
def nodupB : List Nat → Bool
  | [] => true
  | x :: xs => !(xs.contains x) && nodupB xs

/-- Reference model: the rank multiset is exactly the wheel
`{Ace, 5, 4, 3, 2} = {12, 3, 2, 1, 0}`. -/
def specIsWheelSet (rs : List Nat) : Bool :=
  rs.length == 5 && rs.count 12 == 1 && rs.count 3 == 1 && rs.count 2 == 1 &&
    rs.count 1 == 1 && rs.count 0 == 1

/-- Reference model: a straight is five distinct ranks spanning exactly
four (`max - min == 4`), or the wheel. -/
def specIsStraight (rs : List Nat) : Bool :=
  (rs.length == 5 && nodupB rs && specMaxRank rs - specMinRank rs == 4) ||
    specIsWheelSet rs

/-- Reference model: number of ranks occurring exactly `k` times. -/
def specNumCount (rs : List Nat) (k : Nat) : Nat :=
  ((List.range 13).filter (fun r => rs.count r == k)).length

/-- Reference model: category resolution by priority, highest first, as a
function of the straight test and the quad/trip/pair bucket counts
(straight-flush 8, quads 7, full house 6, flush 5, straight 4, trips 3,
two pair 2, one pair 1, high card 0). -/
def specCategoryOf (straightB : Bool) (n4 n3 n2 : Nat) (flush : Bool) : Nat :=
  if straightB && flush then 8
  else if n4 == 1 then 7
  else if n3 == 1 && n2 == 1 then 6
  else if flush then 5
  else if straightB then 4
  else if n3 == 1 && n2 == 0 then 3
  else if n2 == 2 then 2
  else if n2 == 1 && n3 == 0 then 1
  else 0

/-- Reference model: the category of a hand with rank list `rs`. -/
def specCategory (rs : List Nat) (flush : Bool) : Nat :=
  specCategoryOf (specIsStraight rs) (specNumCount rs 4) (specNumCount rs 3)
    (specNumCount rs 2) flush

/-- Reference model: ordered kickers before the wheel override — each card
occurrence keyed by `(count, rank)` (encoded `count * 13 + rank`, ranks
being below 13), sorted descending, keys removed. -/
def specKickersRaw (rs : List Nat) : List Nat :=
  (sortDesc (rs.map (fun r => rs.count r * 13 + r))).map (fun x => x % 13)

/-- Reference model: ordered kickers, with the wheel reading
`[5, 4, 3, 2, Ace]` in rank terms. -/
def specKickers (rs : List Nat) : List Nat :=
  if specIsWheelSet rs then [3, 2, 1, 0, 12] else specKickersRaw rs

/-- Reference model: nibble packing of the five kickers. -/
def packKickers : List Nat → Nat
  | [k1, k2, k3, k4, k5] => k1 * 65536 + k2 * 4096 + k3 * 256 + k4 * 16 + k5
  | _ => 0

/-- Reference model: the packed score `category * 2^20 + kickers`. -/
def specScore (rs : List Nat) (flush : Bool) : Nat :=
  specCategory rs flush * 1048576 + packKickers (specKickers rs)

/-- Reference category of a hand (the specification sorts the rank array
descending in its step 1). -/
def specCatOfHand (hand : List Nat) : Nat :=
  specCategory (sortDesc (handRanks hand)) (specFlush hand)

/-- Reference ordered kickers of a hand. -/
def specKickersOfHand (hand : List Nat) : List Nat :=
  specKickers (sortDesc (handRanks hand))

/-- Kicker-by-kicker comparison: the first differing kicker decides. -/
def kickersGT : List Nat → List Nat → Prop
  | a :: as, b :: bs => b < a ∨ (a = b ∧ kickersGT as bs)
  | _, _ => False

/-- Hand A strictly beats hand B under the reference order: higher
category, or equal category and greater kickers in order. -/
def SpecBeats (A B : List Nat) : Prop :=
  specCatOfHand B < specCatOfHand A ∨
    (specCatOfHand A = specCatOfHand B ∧
      kickersGT (specKickersOfHand A) (specKickersOfHand B))

/-- Hands A and B are exactly tied: same category, same ordered kickers. -/
def SpecTied (A B : List Nat) : Prop :=
  specCatOfHand A = specCatOfHand B ∧ specKickersOfHand A = specKickersOfHand B

/-- A valid 5-card hand: five distinct cards in `[0, 52)`. -/
def ValidHand (hand : List Nat) : Prop :=
  hand.length = 5 ∧ hand.Nodup ∧ ∀ c ∈ hand, c < 52

/-- A valid 7-card input: seven distinct cards in `[0, 52)`. -/
def ValidSeven (seven : List Nat) : Prop :=
  seven.length = 7 ∧ seven.Nodup ∧ ∀ c ∈ seven, c < 52

/-- A valid showdown input: two 2-card hole hands and a 5-card board, all
fourteen cards distinct and in `[0, 52)`. -/
def ValidShowdown (p1 p2 board : List Nat) : Prop :=
  p1.length = 2 ∧ p2.length = 2 ∧ board.length = 5 ∧
    (p1 ++ p2 ++ board).Nodup ∧ ∀ c ∈ p1 ++ p2 ++ board, c < 52

/-- Reference recursion for the guarded kicker expansion: write the given
values into consecutive slots of the 5-slot array, stopping at index 5. -/
def fillSpec (arr : List Nat) (idx : Nat) : List Nat → List Nat × Nat
  | [] => (arr, idx)
  | x :: xs => if idx < 5 then fillSpec (arr.set idx x) (idx + 1) xs else (arr, idx)

/-- The fully expanded kicker stream of a packed bucket list: each bucket
contributes its rank `count` times, in bucket order. -/
def kickStream (packed : List Nat) : List Nat :=
  packed.flatMap (fun p => List.replicate (p / 256) (p % 256))

/-! ### Sorting lemmas for the descending insertion sort -/

theorem insertDesc_perm (x : Nat) (l : List Nat) : (insertDesc x l).Perm (x :: l) := by
  induction l with
  | nil => simp [insertDesc]
  | cons y ys ih =>
    simp only [insertDesc]
    split
    · exact List.Perm.refl _
    · exact (List.Perm.cons y ih).trans (List.Perm.swap x y ys)

theorem sortDesc_perm (l : List Nat) : (sortDesc l).Perm l := by
  induction l with
  | nil => exact List.Perm.refl _
  | cons x xs ih => exact (insertDesc_perm x (sortDesc xs)).trans (List.Perm.cons x ih)

theorem insertDesc_sorted (x : Nat) (l : List Nat) (h : l.Pairwise (· ≥ ·)) :
    (insertDesc x l).Pairwise (· ≥ ·) := by
  induction l with
  | nil => simp [insertDesc]
  | cons y ys ih =>
    simp only [insertDesc]
    rw [List.pairwise_cons] at h
    split
    · rename_i hle
      rw [List.pairwise_cons]
      constructor
      · intro a ha
        rcases List.mem_cons.mp ha with rfl | ha
        · exact hle
        · exact le_trans (h.1 a ha) hle
      · exact List.pairwise_cons.mpr h
    · rename_i hgt
      rw [List.pairwise_cons]
      constructor
      · intro a ha
        have := (insertDesc_perm x ys).mem_iff.mp ha
        rcases List.mem_cons.mp this with rfl | ha'
        · omega
        · exact h.1 a ha'
      · exact ih h.2

theorem sortDesc_sorted (l : List Nat) : (sortDesc l).Pairwise (· ≥ ·) := by
  induction l with
  | nil => simp [sortDesc]
  | cons x xs ih => exact insertDesc_sorted x (sortDesc xs) ih

instance : IsAntisymm Nat (· ≥ ·) := ⟨fun _ _ h1 h2 => Nat.le_antisymm h2 h1⟩

theorem sortDesc_eq_of_perm_sorted {l m : List Nat} (hp : l.Perm m)
    (hm : m.Pairwise (· ≥ ·)) : sortDesc l = m :=
  List.eq_of_perm_of_sorted ((sortDesc_perm l).trans hp) (sortDesc_sorted l) hm

theorem sortDesc_congr {l m : List Nat} (hp : l.Perm m) : sortDesc l = sortDesc m :=
  sortDesc_eq_of_perm_sorted (hp.trans (sortDesc_perm m).symm) (sortDesc_sorted m)

theorem sortDesc_length (l : List Nat) : (sortDesc l).length = l.length :=
  (sortDesc_perm l).length_eq

/-! ### Small list utilities -/

theorem exists_five {α : Type} (l : List α) (h : l.length = 5) :
    ∃ a b c d e, l = [a, b, c, d, e] := by
  match l, h with
  | [a, b, c, d, e], _ => exact ⟨a, b, c, d, e, rfl⟩

theorem exists_seven {α : Type} (l : List α) (h : l.length = 7) :
    ∃ a b c d e f g, l = [a, b, c, d, e, f, g] := by
  match l, h with
  | [a, b, c, d, e, f, g], _ => exact ⟨a, b, c, d, e, f, g, rfl⟩

theorem set_getD_self (l : List Nat) (n : Nat) (h : n < l.length) :
    l.set n (l.getD n 0) = l := by
  apply List.ext_getElem
  · simp
  · intro i h1 h2
    rw [List.getElem_set]
    split
    · rename_i hi
      subst hi
      rw [List.getD_eq_getElem l 0 h]
    · rfl

theorem contains_iff_mem (l : List Nat) (a : Nat) : l.contains a = true ↔ a ∈ l :=
  List.contains_iff_exists_mem_beq.trans (by simp)

theorem nodupB_iff (l : List Nat) : nodupB l = true ↔ l.Nodup := by
  induction l with
  | nil => simp [nodupB]
  | cons x xs ih =>
    simp only [nodupB, Bool.and_eq_true, Bool.not_eq_true', List.nodup_cons]
    rw [ih]
    constructor
    · intro ⟨h1, h2⟩
      refine ⟨fun hmem => ?_, h2⟩
      rw [← contains_iff_mem] at hmem
      rw [h1] at hmem
      exact Bool.false_ne_true hmem
    · intro ⟨h1, h2⟩
      refine ⟨?_, h2⟩
      rw [← Bool.not_eq_true, contains_iff_mem]
      exact h1

theorem sum_map_add (l : List Nat) (f g : Nat → Nat) :
    (l.map (fun r => f r + g r)).sum = (l.map f).sum + (l.map g).sum := by
  induction l with
  | nil => simp
  | cons x xs ih => simp [ih]; omega

theorem sum_ite_not_mem (l : List Nat) (x : Nat) (g : Nat → Nat) (h : x ∉ l) :
    (l.map (fun r => if x = r then g r else 0)).sum = 0 := by
  induction l with
  | nil => simp
  | cons y ys ih =>
    simp only [List.mem_cons, not_or] at h
    simp only [List.map_cons, List.sum_cons]
    rw [if_neg h.1, ih h.2]

theorem sum_ite_range (n x : Nat) (g : Nat → Nat) (h : x < n) :
    ((List.range n).map (fun r => if x = r then g r else 0)).sum = g x := by
  induction n with
  | zero => omega
  | succ m ih =>
    rw [List.range_succ, List.map_append, List.sum_append]
    rcases Nat.lt_or_ge x m with hlt | hge
    · rw [ih hlt]
      simp only [List.map_cons, List.map_nil, List.sum_cons, List.sum_nil]
      rw [if_neg (by omega)]
      omega
    · have hx : x = m := by omega
      subst hx
      rw [sum_ite_not_mem _ _ _ (by simp)]
      simp

theorem sum_counts_eq_length (t : List Nat) (n : Nat) (hmem : ∀ x ∈ t, x < n) :
    ((List.range n).map (fun r => t.count r)).sum = t.length := by
  induction t with
  | nil => simp
  | cons x xs ih =>
    have hx : x < n := hmem x (by simp)
    have hxs : ∀ y ∈ xs, y < n := fun y hy => hmem y (by simp [hy])
    have hcongr : (List.range n).map (fun r => (x :: xs).count r) =
        (List.range n).map (fun r => xs.count r + (if x = r then 1 else 0)) := by
      apply List.map_congr_left
      intro r _
      simp [List.count_cons]
    rw [hcongr, sum_map_add, ih hxs, sum_ite_range n x (fun _ => 1) hx]
    simp

/-! ### The guarded kicker expansion as a sequential fill -/

theorem guardedPush_sat (r : Nat) (st : List Nat × Nat) (h : ¬ st.2 < 5) (c : Nat) :
    (guardedPush r)^[c] st = st := by
  induction c with
  | zero => rfl
  | succ m ih =>
    rw [Function.iterate_succ_apply]
    have : guardedPush r st = st := by simp [guardedPush, h]
    rw [this, ih]

theorem fillSpec_sat (arr : List Nat) (idx : Nat) (xs : List Nat) (h : ¬ idx < 5) :
    fillSpec arr idx xs = (arr, idx) := by
  cases xs <;> simp [fillSpec, h]

theorem iterate_guardedPush_eq_fillSpec (r c : Nat) (arr : List Nat) (idx : Nat) :
    (guardedPush r)^[c] (arr, idx) = fillSpec arr idx (List.replicate c r) := by
  induction c generalizing arr idx with
  | zero => simp [fillSpec]
  | succ m ih =>
    rw [List.replicate_succ, Function.iterate_succ_apply]
    by_cases h : idx < 5
    · have hstep : guardedPush r (arr, idx) = (arr.set idx r, idx + 1) := by
        simp [guardedPush, h]
      rw [hstep, ih]
      simp [fillSpec, h]
    · rw [fillSpec_sat _ _ _ h]
      have hstep : guardedPush r (arr, idx) = (arr, idx) := by simp [guardedPush, h]
      rw [hstep, guardedPush_sat r (arr, idx) h m]

theorem fillSpec_append (arr : List Nat) (idx : Nat) (xs ys : List Nat) :
    fillSpec arr idx (xs ++ ys) =
      fillSpec (fillSpec arr idx xs).1 (fillSpec arr idx xs).2 ys := by
  induction xs generalizing arr idx with
  | nil => simp [fillSpec]
  | cons x xs ih =>
    by_cases h : idx < 5
    · simp only [List.cons_append, fillSpec, if_pos h]
      exact ih (arr.set idx x) (idx + 1)
    · rw [fillSpec_sat _ _ _ h, fillSpec_sat _ _ _ h, fillSpec_sat _ _ _ h]

theorem foldl_expand_eq_fillSpec (packed : List Nat) (arr : List Nat) (idx : Nat) :
    packed.foldl (fun st p => (guardedPush (p % 256))^[p / 256] st) (arr, idx) =
      fillSpec arr idx (kickStream packed) := by
  induction packed generalizing arr idx with
  | nil => simp [kickStream, fillSpec]
  | cons p ps ih =>
    rw [List.foldl_cons]
    have hks : kickStream (p :: ps) =
        List.replicate (p / 256) (p % 256) ++ kickStream ps := by
      simp [kickStream, List.flatMap_cons]
    rw [hks, fillSpec_append, iterate_guardedPush_eq_fillSpec]
    have := ih (fillSpec arr idx (List.replicate (p / 256) (p % 256))).1
      (fillSpec arr idx (List.replicate (p / 256) (p % 256))).2
    rw [Prod.mk.eta] at this
    exact this

theorem fillSpec_exact (xs : List Nat) (h : xs.length = 5) :
    fillSpec [0, 0, 0, 0, 0] 0 xs = (xs, 5) := by
  obtain ⟨a, b, c, d, e, rfl⟩ := exists_five xs h
  rfl

theorem expandKickers_eq_kickStream (packed : List Nat)
    (h : (kickStream packed).length = 5) :
    expandKickers packed = kickStream packed := by
  unfold expandKickers
  rw [foldl_expand_eq_fillSpec, fillSpec_exact _ h]

/-! ### The packed-bucket stream of a 5-card rank list has length 5 -/

theorem kickStream_length (packed : List Nat) :
    (kickStream packed).length = (packed.map (fun p => p / 256)).sum := by
  unfold kickStream
  rw [List.length_flatMap]
  congr 1
  apply List.map_congr_left
  intro p _
  simp

theorem packedRanks_mem_mod (t : List Nat) (p : Nat) (hp : p ∈ packedRanks t) :
    p % 256 < 13 ∧ p / 256 = t.count (p % 256) := by
  have hmem : p ∈ (List.range 13).map (fun i => t.count i * 256 + i) :=
    (sortDesc_perm _).mem_iff.mp hp
  obtain ⟨i, hi, rfl⟩ := List.mem_map.mp hmem
  rw [List.mem_range] at hi
  constructor
  · omega
  · have h1 : (t.count i * 256 + i) % 256 = i := by omega
    rw [h1]
    omega

theorem packedRanks_stream_length (t : List Nat) (hlen : t.length = 5)
    (hmem : ∀ x ∈ t, x < 13) : (kickStream (packedRanks t)).length = 5 := by
  rw [kickStream_length]
  have hperm : ((packedRanks t).map (fun p => p / 256)).Perm
      (((List.range 13).map (fun i => t.count i * 256 + i)).map (fun p => p / 256)) :=
    (sortDesc_perm _).map _
  rw [hperm.sum_eq, List.map_map]
  have hcongr : (List.range 13).map ((fun p => p / 256) ∘ (fun i => t.count i * 256 + i)) =
      (List.range 13).map (fun r => t.count r) := by
    apply List.map_congr_left
    intro i hi
    rw [List.mem_range] at hi
    show (t.count i * 256 + i) / 256 = t.count i
    omega
  rw [hcongr, sum_counts_eq_length t 13 hmem, hlen]

/-! ### The reference kicker order equals the packed-bucket stream -/

theorem sum_map_zero (l : List Nat) : (l.map (fun _ => (0 : Nat))).sum = 0 := by
  induction l with
  | nil => rfl
  | cons x xs ih => simp [ih]

theorem sorted_keys_eq_flat (t : List Nat) (hmem : ∀ x ∈ t, x < 13) :
    sortDesc (t.map (fun r => t.count r * 13 + r)) =
      (packedRanks t).flatMap
        (fun p => List.replicate (p / 256) ((p / 256) * 13 + p % 256)) := by
  apply sortDesc_eq_of_perm_sorted
  · rw [List.perm_iff_count]
    intro v
    rw [List.count_flatMap]
    have hperm : ((packedRanks t).map
        ((List.count v) ∘ (fun p => List.replicate (p / 256) ((p / 256) * 13 + p % 256)))).Perm
        (((List.range 13).map (fun i => t.count i * 256 + i)).map
          ((List.count v) ∘ (fun p => List.replicate (p / 256) ((p / 256) * 13 + p % 256)))) :=
      (sortDesc_perm _).map _
    rw [hperm.sum_eq, List.map_map]
    have hcongr : (List.range 13).map
        (((List.count v) ∘ (fun p => List.replicate (p / 256) ((p / 256) * 13 + p % 256))) ∘
          (fun i => t.count i * 256 + i)) =
        (List.range 13).map
          (fun r => if t.count r * 13 + r = v then t.count r else 0) := by
      apply List.map_congr_left
      intro i hi
      rw [List.mem_range] at hi
      show List.count v (List.replicate ((t.count i * 256 + i) / 256)
        (((t.count i * 256 + i) / 256) * 13 + (t.count i * 256 + i) % 256)) = _
      have h1 : (t.count i * 256 + i) / 256 = t.count i := by omega
      have h2 : (t.count i * 256 + i) % 256 = i := by omega
      rw [h1, h2, List.count_replicate]
      by_cases hv : t.count i * 13 + i = v
      · rw [if_pos (by simpa using hv), if_pos hv]
      · rw [if_neg (by simpa using hv), if_neg hv]
    rw [hcongr]
    rw [List.count_eq_countP, List.countP_map]
    by_cases hv : t.count (v % 13) * 13 + (v % 13) = v
    · have hLHS : List.countP
          ((fun x => x == v) ∘ (fun r => t.count r * 13 + r)) t =
          List.countP (fun x => x == (v % 13)) t := by
        apply List.countP_congr
        intro x hx
        have hx13 : x < 13 := hmem x hx
        show (t.count x * 13 + x == v) = true ↔ (x == v % 13) = true
        simp only [beq_iff_eq]
        constructor
        · intro h; omega
        · intro h; subst h; exact hv
      rw [hLHS, ← List.count_eq_countP]
      have hRHS : (List.range 13).map
          (fun r => if t.count r * 13 + r = v then t.count r else 0) =
          (List.range 13).map (fun r => if (v % 13) = r then t.count r else 0) := by
        apply List.map_congr_left
        intro r hr
        rw [List.mem_range] at hr
        by_cases h : t.count r * 13 + r = v
        · rw [if_pos h, if_pos (by omega)]
        · rw [if_neg h, if_neg (by intro he; subst he; exact h hv)]
      rw [hRHS, sum_ite_range 13 (v % 13) (fun r => t.count r) (by omega)]
    · have hLHS : List.countP
          ((fun x => x == v) ∘ (fun r => t.count r * 13 + r)) t = 0 := by
        rw [List.countP_eq_zero]
        intro x hx
        have hx13 : x < 13 := hmem x hx
        show ¬(t.count x * 13 + x == v) = true
        simp only [beq_iff_eq]
        intro h
        have : x = v % 13 := by omega
        subst this
        exact hv h
      have hRHS : (List.range 13).map
          (fun r => if t.count r * 13 + r = v then t.count r else 0) =
          (List.range 13).map (fun _ => (0 : Nat)) := by
        apply List.map_congr_left
        intro r hr
        rw [List.mem_range] at hr
        rw [if_neg]
        intro h
        have : r = v % 13 := by omega
        subst this
        exact hv h
      rw [hLHS, hRHS, sum_map_zero]
  · have hsort := sortDesc_sorted ((List.range 13).map (fun i => t.count i * 256 + i))
    have hmemp := packedRanks_mem_mod t
    revert hsort hmemp
    show (packedRanks t).Pairwise (· ≥ ·) →
      (∀ p ∈ packedRanks t, p % 256 < 13 ∧ p / 256 = t.count (p % 256)) →
      ((packedRanks t).flatMap _).Pairwise (· ≥ ·)
    generalize packedRanks t = l
    intro hsort hmemp
    induction l with
    | nil => simp
    | cons p ps ih =>
      rw [List.flatMap_cons, List.pairwise_append]
      rw [List.pairwise_cons] at hsort
      refine ⟨?_, ?_, ?_⟩
      · rw [List.pairwise_replicate]
        right
        exact le_refl _
      · exact ih hsort.2 (fun p' hp' => hmemp p' (by simp [hp']))
      · intro a ha b hb
        have ha' := List.eq_of_mem_replicate ha
        obtain ⟨p', hp', hb'⟩ := List.mem_flatMap.mp hb
        have hb'' := List.eq_of_mem_replicate hb'
        subst ha' hb''
        have h1 := hmemp p (by simp)
        have h2 := hmemp p' (by simp [hp'])
        have h3 : p ≥ p' := hsort.1 p' hp'
        omega

theorem specKickersRaw_eq_kickStream (t : List Nat) (hmem : ∀ x ∈ t, x < 13) :
    specKickersRaw t = kickStream (packedRanks t) := by
  unfold specKickersRaw kickStream
  rw [sorted_keys_eq_flat t hmem, List.map_flatMap]
  apply List.flatMap_congr
  intro p hp
  rw [List.map_replicate]
  have h := packedRanks_mem_mod t p hp
  congr 1
  omega

theorem expand_eq_specKickersRaw (t : List Nat) (hlen : t.length = 5)
    (hmem : ∀ x ∈ t, x < 13) :
    expandKickers (packedRanks t) = specKickersRaw t := by
  rw [specKickersRaw_eq_kickStream t hmem]
  exact expandKickers_eq_kickStream _ (packedRanks_stream_length t hlen hmem)

/-! ### The positional straight and wheel tests agree with the reference -/

theorem specIsWheelSet_iff (t : List Nat) :
    specIsWheelSet t = true ↔ t.Perm [12, 3, 2, 1, 0] := by
  unfold specIsWheelSet
  simp only [Bool.and_eq_true, beq_iff_eq]
  constructor
  · intro ⟨⟨⟨⟨⟨h5, h12⟩, h3⟩, h2⟩, h1⟩, h0⟩
    have hsub : List.Subperm [12, 3, 2, 1, 0] t := by
      rw [List.subperm_ext_iff]
      intro x hx
      simp only [List.mem_cons, List.not_mem_nil, or_false] at hx
      rcases hx with rfl | rfl | rfl | rfl | rfl
      · rw [h12]; decide
      · rw [h3]; decide
      · rw [h2]; decide
      · rw [h1]; decide
      · rw [h0]; decide
    exact (hsub.perm_of_length_le (by rw [h5]; rfl)).symm
  · intro hp
    have hl : t.length = 5 := by rw [hp.length_eq]; rfl
    have c12 : t.count 12 = 1 := by rw [hp.count_eq]; rfl
    have c3 : t.count 3 = 1 := by rw [hp.count_eq]; rfl
    have c2 : t.count 2 = 1 := by rw [hp.count_eq]; rfl
    have c1 : t.count 1 = 1 := by rw [hp.count_eq]; rfl
    have c0 : t.count 0 = 1 := by rw [hp.count_eq]; rfl
    exact ⟨⟨⟨⟨⟨hl, c12⟩, c3⟩, c2⟩, c1⟩, c0⟩

theorem wheel_agree (t : List Nat) (hsort : t.Pairwise (· ≥ ·)) (hlen : t.length = 5) :
    isWheel t = specIsWheelSet t := by
  by_cases h : specIsWheelSet t = true
  · rw [h]
    have hperm := (specIsWheelSet_iff t).mp h
    have ht : t = [12, 3, 2, 1, 0] :=
      List.eq_of_perm_of_sorted hperm hsort (by decide)
    rw [ht]
    rfl
  · rw [Bool.not_eq_true] at h
    rw [h]
    rw [← Bool.not_eq_true]
    intro hw
    obtain ⟨a, b, c, d, e, rfl⟩ := exists_five t hlen
    have e0 : [a, b, c, d, e].getD 0 0 = a := rfl
    have e1 : [a, b, c, d, e].getD 1 0 = b := rfl
    have e2 : [a, b, c, d, e].getD 2 0 = c := rfl
    have e3 : [a, b, c, d, e].getD 3 0 = d := rfl
    have e4 : [a, b, c, d, e].getD 4 0 = e := rfl
    unfold isWheel at hw
    rw [e0, e1, e2, e3, e4] at hw
    simp only [Bool.and_eq_true, beq_iff_eq] at hw
    obtain ⟨⟨⟨⟨ha, hb⟩, hc⟩, hd⟩, he⟩ := hw
    subst ha hb hc hd he
    have hws : specIsWheelSet [12, 3, 2, 1, 0] = true := by decide
    rw [hws] at h
    exact absurd h (by decide)

theorem straight_agree (t : List Nat) (hsort : t.Pairwise (· ≥ ·)) (hlen : t.length = 5)
    (hmem : ∀ x ∈ t, x < 13) : isStraight t = specIsStraight t := by
  unfold isStraight specIsStraight
  rw [wheel_agree t hsort hlen]
  cases hw : specIsWheelSet t
  · rw [Bool.or_false, Bool.or_false]
    obtain ⟨a, b, c, d, e, rfl⟩ := exists_five t hlen
    simp only [List.pairwise_cons, List.mem_cons, List.not_mem_nil] at hsort
    have hab : a ≥ b := hsort.1 b (by tauto)
    have hbc : b ≥ c := hsort.2.1 c (by tauto)
    have hcd : c ≥ d := hsort.2.2.1 d (by tauto)
    have hde : d ≥ e := hsort.2.2.2.1 e (by tauto)
    have he13 : e < 13 := hmem e (by simp)
    have eg : isStraightGapped [a, b, c, d, e] =
        ((a - e == 4) && !(a == b) && !(b == c) && !(c == d) && !(d == e)) := rfl
    have em : specMaxRank [a, b, c, d, e] = a := by
      show max a (max b (max c (max d (max e 0)))) = a
      omega
    have en : specMinRank [a, b, c, d, e] = e := by
      show min a (min b (min c (min d (min e 12)))) = e
      omega
    rw [eg, em, en, Bool.eq_iff_iff]
    simp only [Bool.and_eq_true, beq_iff_eq, Bool.not_eq_true', beq_eq_false_iff_ne,
      ne_eq, nodupB_iff, List.nodup_cons, List.mem_cons, List.not_mem_nil, or_false,
      not_or, List.length_cons, List.length_nil, List.nodup_nil, and_true, true_and,
      not_false_iff]
    omega
  · rw [Bool.or_true, Bool.or_true]

/-! ### Count-structure facts for 5-card rank lists -/

theorem count_pair_le (l : List Nat) (r s : Nat) (h : r ≠ s) :
    l.count r + l.count s ≤ l.length := by
  induction l with
  | nil => simp
  | cons x xs ih =>
    simp only [List.count_cons, List.length_cons, beq_iff_eq]
    split_ifs <;> omega

theorem count_triple_le (l : List Nat) (r s u : Nat) (hrs : r ≠ s) (hru : r ≠ u)
    (hsu : s ≠ u) : l.count r + l.count s + l.count u ≤ l.length := by
  induction l with
  | nil => simp
  | cons x xs ih =>
    simp only [List.count_cons, List.length_cons, beq_iff_eq]
    split_ifs <;> omega

theorem exists_distinct2 {l : List Nat} (hnd : l.Nodup) (h : 2 ≤ l.length) :
    ∃ x y, x ≠ y ∧ x ∈ l ∧ y ∈ l := by
  match l, h with
  | x :: y :: rest, _ =>
    simp only [List.nodup_cons, List.mem_cons, not_or] at hnd
    exact ⟨x, y, hnd.1.1, by simp, by simp⟩

theorem exists_distinct3 {l : List Nat} (hnd : l.Nodup) (h : 3 ≤ l.length) :
    ∃ x y z, x ≠ y ∧ x ≠ z ∧ y ≠ z ∧ x ∈ l ∧ y ∈ l ∧ z ∈ l := by
  match l, h with
  | x :: y :: z :: rest, _ =>
    simp only [List.nodup_cons, List.mem_cons, not_or] at hnd
    exact ⟨x, y, z, hnd.1.1, hnd.1.2.1, hnd.2.1.1, by simp, by simp, by simp⟩

theorem specNumCount_one_exists (t : List Nat) (k : Nat)
    (h : 1 ≤ specNumCount t k) : ∃ r, r < 13 ∧ t.count r = k := by
  unfold specNumCount at h
  cases hFe : (List.range 13).filter (fun r => t.count r == k) with
  | nil => rw [hFe] at h; simp at h
  | cons x rest =>
    have hx : x ∈ (List.range 13).filter (fun r => t.count r == k) := by
      rw [hFe]; exact List.mem_cons_self x rest
    rw [List.mem_filter, List.mem_range] at hx
    exact ⟨x, hx.1, by simpa using hx.2⟩

theorem specNumCount_two_exists (t : List Nat) (k : Nat)
    (h : 2 ≤ specNumCount t k) :
    ∃ r s, r ≠ s ∧ t.count r = k ∧ t.count s = k := by
  unfold specNumCount at h
  have hnd : ((List.range 13).filter (fun r => t.count r == k)).Nodup :=
    List.Nodup.filter _ (List.nodup_range 13)
  obtain ⟨x, y, hxy, hx, hy⟩ := exists_distinct2 hnd h
  rw [List.mem_filter] at hx hy
  exact ⟨x, y, hxy, by simpa using hx.2, by simpa using hy.2⟩

theorem specNumCount_three_exists (t : List Nat) (k : Nat)
    (h : 3 ≤ specNumCount t k) :
    ∃ r s u, r ≠ s ∧ r ≠ u ∧ s ≠ u ∧ t.count r = k ∧ t.count s = k ∧ t.count u = k := by
  unfold specNumCount at h
  have hnd : ((List.range 13).filter (fun r => t.count r == k)).Nodup :=
    List.Nodup.filter _ (List.nodup_range 13)
  obtain ⟨x, y, z, hxy, hxz, hyz, hx, hy, hz⟩ := exists_distinct3 hnd h
  rw [List.mem_filter] at hx hy hz
  exact ⟨x, y, z, hxy, hxz, hyz, by simpa using hx.2, by simpa using hy.2,
    by simpa using hz.2⟩

theorem counts_structure (t : List Nat) (hlen : t.length = 5) :
    specNumCount t 4 ≤ 1 ∧ specNumCount t 3 ≤ 1 ∧ specNumCount t 2 ≤ 2 ∧
      (specNumCount t 4 = 1 → specNumCount t 3 = 0 ∧ specNumCount t 2 = 0) ∧
      (specNumCount t 3 = 1 → specNumCount t 2 ≤ 1) := by
  have h44 : specNumCount t 4 ≤ 1 := by
    by_contra hc
    obtain ⟨r, s, hrs, hr, hs⟩ := specNumCount_two_exists t 4 (by omega)
    have := count_pair_le t r s hrs
    omega
  have h33 : specNumCount t 3 ≤ 1 := by
    by_contra hc
    obtain ⟨r, s, hrs, hr, hs⟩ := specNumCount_two_exists t 3 (by omega)
    have := count_pair_le t r s hrs
    omega
  have h22 : specNumCount t 2 ≤ 2 := by
    by_contra hc
    obtain ⟨r, s, u, hrs, hru, hsu, hr, hs, hu⟩ :=
      specNumCount_three_exists t 2 (by omega)
    have := count_triple_le t r s u hrs hru hsu
    omega
  have h43 : ¬(1 ≤ specNumCount t 4 ∧ 1 ≤ specNumCount t 3) := by
    intro ⟨h4, h3⟩
    obtain ⟨r, _, hr⟩ := specNumCount_one_exists t 4 h4
    obtain ⟨s, _, hs⟩ := specNumCount_one_exists t 3 h3
    have hrs : r ≠ s := fun he => by rw [he, hs] at hr; omega
    have := count_pair_le t r s hrs
    omega
  have h42 : ¬(1 ≤ specNumCount t 4 ∧ 1 ≤ specNumCount t 2) := by
    intro ⟨h4, h2⟩
    obtain ⟨r, _, hr⟩ := specNumCount_one_exists t 4 h4
    obtain ⟨s, _, hs⟩ := specNumCount_one_exists t 2 h2
    have hrs : r ≠ s := fun he => by rw [he, hs] at hr; omega
    have := count_pair_le t r s hrs
    omega
  have h32 : specNumCount t 3 = 1 → specNumCount t 2 ≤ 1 := by
    intro h3
    by_contra hc
    obtain ⟨r, _, hr⟩ := specNumCount_one_exists t 3 (by omega)
    obtain ⟨s, u, hsu, hs, hu⟩ := specNumCount_two_exists t 2 (by omega)
    have hrs : r ≠ s := fun he => by rw [he, hs] at hr; omega
    have hru : r ≠ u := fun he => by rw [he, hu] at hr; omega
    have := count_triple_le t r s u hrs hru hsu
    omega
  exact ⟨h44, h33, h22, fun h4 => ⟨by omega, by omega⟩, h32⟩

theorem nodup_specNumCount (t : List Nat) (hnd : t.Nodup) (k : Nat) (hk : 2 ≤ k) :
    specNumCount t k = 0 := by
  unfold specNumCount
  have hnil : (List.range 13).filter (fun r => t.count r == k) = [] := by
    rw [List.filter_eq_nil_iff]
    intro r _
    have := List.nodup_iff_count_le_one.mp hnd r
    simp only [beq_iff_eq]
    omega
  rw [hnil]
  rfl

theorem specStraight_nodup (t : List Nat) (h : specIsStraight t = true) : t.Nodup := by
  unfold specIsStraight at h
  rw [Bool.or_eq_true] at h
  rcases h with h | h
  · simp only [Bool.and_eq_true, nodupB_iff] at h
    exact h.1.2
  · have hperm := (specIsWheelSet_iff t).mp h
    exact hperm.nodup_iff.mpr (by decide)

/-! ### Category resolution: the arithmetic sum equals the priority chain -/

theorem category_core (sps f : Bool) (n4 n3 n2 : Nat)
    (h4 : n4 ≤ 1) (h3 : n3 ≤ 1) (h2 : n2 ≤ 2)
    (hx1 : n4 = 1 → n3 = 0 ∧ n2 = 0) (hx2 : n3 = 1 → n2 ≤ 1)
    (hsps : sps = true → n4 = 0 ∧ n3 = 0 ∧ n2 = 0) :
    hrSum sps (n4 == 1) (n3 == 1 && n2 == 1) (n3 == 1 && n2 == 0) (n2 == 2)
        (n2 == 1 && n3 == 0) f = specCategoryOf sps n4 n3 n2 f ∧
      specCategoryOf sps n4 n3 n2 f ≤ 8 ∧
      (indList sps (n4 == 1) (n3 == 1 && n2 == 1) (n3 == 1 && n2 == 0) (n2 == 2)
        (n2 == 1 && n3 == 0) f).countP (fun b => b) = 1 := by
  interval_cases n4 <;> interval_cases n3 <;> interval_cases n2 <;>
    cases sps <;> cases f <;> (try simp_all) <;> decide

/-! ### Score assembly: shifts and ors equal the positional polynomial -/

theorem assembleScoreMul_eq (hr k1 k2 k3 k4 k5 : Nat) :
    assembleScoreMul hr [k1, k2, k3, k4, k5] =
      hr * 1048576 + k1 * 65536 + k2 * 4096 + k3 * 256 + k4 * 16 + k5 := by
  show hr * 1048576 + k1 * 65536 + k2 * 4096 + k3 * 256 + k4 * 16 + k5 * 1 = _
  ring

theorem assembleScore_eq (hr k1 k2 k3 k4 k5 : Nat) (hhr : hr < 16) (h1 : k1 < 16)
    (h2 : k2 < 16) (h3 : k3 < 16) (h4 : k4 < 16) (h5 : k5 < 16) :
    assembleScore hr [k1, k2, k3, k4, k5] =
      hr * 1048576 + k1 * 65536 + k2 * 4096 + k3 * 256 + k4 * 16 + k5 := by
  show (((((hr <<< 20) ||| (k1 <<< 16)) ||| (k2 <<< 12)) ||| (k3 <<< 8)) |||
      (k4 <<< 4)) ||| k5 = _
  rw [Nat.shiftLeft_eq, Nat.shiftLeft_eq, Nat.shiftLeft_eq, Nat.shiftLeft_eq,
    Nat.shiftLeft_eq]
  have s1 : hr * 2 ^ 20 ||| k1 * 2 ^ 16 = 2 ^ 16 * (2 ^ 4 * hr + k1) := by
    rw [show hr * 2 ^ 20 = 2 ^ 20 * hr by ring,
      ← Nat.mul_add_lt_is_or (show k1 * 2 ^ 16 < 2 ^ 20 by omega) hr]
    ring
  have s2 : 2 ^ 16 * (2 ^ 4 * hr + k1) ||| k2 * 2 ^ 12 =
      2 ^ 12 * (2 ^ 8 * hr + 2 ^ 4 * k1 + k2) := by
    rw [← Nat.mul_add_lt_is_or (show k2 * 2 ^ 12 < 2 ^ 16 by omega) (2 ^ 4 * hr + k1)]
    ring
  have s3 : 2 ^ 12 * (2 ^ 8 * hr + 2 ^ 4 * k1 + k2) ||| k3 * 2 ^ 8 =
      2 ^ 8 * (2 ^ 12 * hr + 2 ^ 8 * k1 + 2 ^ 4 * k2 + k3) := by
    rw [← Nat.mul_add_lt_is_or (show k3 * 2 ^ 8 < 2 ^ 12 by omega)
      (2 ^ 8 * hr + 2 ^ 4 * k1 + k2)]
    ring
  have s4 : 2 ^ 8 * (2 ^ 12 * hr + 2 ^ 8 * k1 + 2 ^ 4 * k2 + k3) ||| k4 * 2 ^ 4 =
      2 ^ 4 * (2 ^ 16 * hr + 2 ^ 12 * k1 + 2 ^ 8 * k2 + 2 ^ 4 * k3 + k4) := by
    rw [← Nat.mul_add_lt_is_or (show k4 * 2 ^ 4 < 2 ^ 8 by omega)
      (2 ^ 12 * hr + 2 ^ 8 * k1 + 2 ^ 4 * k2 + k3)]
    ring
  have s5 : 2 ^ 4 * (2 ^ 16 * hr + 2 ^ 12 * k1 + 2 ^ 8 * k2 + 2 ^ 4 * k3 + k4) ||| k5 =
      hr * 1048576 + k1 * 65536 + k2 * 4096 + k3 * 256 + k4 * 16 + k5 := by
    rw [← Nat.mul_add_lt_is_or (show k5 < 2 ^ 4 by omega)
      (2 ^ 16 * hr + 2 ^ 12 * k1 + 2 ^ 8 * k2 + 2 ^ 4 * k3 + k4)]
    ring
  rw [s1, s2, s3, s4, s5]

/-! ### The wheel-override multiplexer -/

theorem wheelMux_true (ks : List Nat) : wheelMux true ks = [3, 2, 1, 0, 12] := by
  unfold wheelMux
  simp only [Bool.toNat_true, Bool.not_true, Bool.toNat_false, one_mul, zero_mul,
    add_zero]
  rw [show List.range 5 = [0, 1, 2, 3, 4] from rfl]
  rfl

theorem wheelMux_false (ks : List Nat) (h : ks.length = 5) : wheelMux false ks = ks := by
  obtain ⟨a, b, c, d, e, rfl⟩ := exists_five ks h
  unfold wheelMux
  simp only [Bool.toNat_false, Bool.not_false, Bool.toNat_true, one_mul, zero_mul,
    zero_add]
  rw [show List.range 5 = [0, 1, 2, 3, 4] from rfl]
  rfl

/-! ### The unrolled circuit expansion equals the guarded expansion -/

theorem guardedPush_length (r : Nat) (st : List Nat × Nat) :
    (guardedPush r st).1.length = st.1.length := by
  unfold guardedPush
  split <;> simp

theorem iterate_guardedPush_length (r c : Nat) (st : List Nat × Nat) :
    ((guardedPush r)^[c] st).1.length = st.1.length := by
  induction c generalizing st with
  | zero => rfl
  | succ m ih =>
    rw [Function.iterate_succ_apply, ih, guardedPush_length]

theorem circStep_length (p k : Nat) (st : List Nat × Nat) :
    (circStep p k st).1.length = st.1.length := by
  unfold circStep
  simp [List.length_set]

theorem circStep_eq (p k : Nat) (st : List Nat × Nat) (hlen : st.1.length = 5) :
    circStep p k st = if k < p / 256 then guardedPush (p % 256) st else st := by
  simp only [circStep, guardedPush]
  by_cases hc : k < p / 256 <;> by_cases hi : st.2 < 5
  · rw [if_pos hc, if_pos hi, decide_eq_true hc, decide_eq_true hi]
    simp
  · rw [if_pos hc, if_neg hi, decide_eq_true hc, decide_eq_false hi]
    simp only [Bool.and_false, Bool.not_false, Bool.toNat_false, Bool.toNat_true,
      zero_mul, one_mul, zero_add, add_zero]
    rw [List.set_eq_of_length_le (by omega)]
  · rw [if_neg hc, decide_eq_false hc, decide_eq_true hi]
    simp only [Bool.false_and, Bool.not_false, Bool.toNat_false, Bool.toNat_true,
      zero_mul, one_mul, zero_add, add_zero]
    rw [set_getD_self st.1 st.2 (by omega)]
  · rw [if_neg hc, decide_eq_false hc, decide_eq_false hi]
    simp only [Bool.false_and, Bool.not_false, Bool.toNat_false, Bool.toNat_true,
      zero_mul, one_mul, zero_add, add_zero]
    rw [List.set_eq_of_length_le (by omega)]

theorem circBucket_eq (st : List Nat × Nat) (p : Nat) (hlen : st.1.length = 5)
    (hc : p / 256 ≤ 5) :
    circBucket st p = (guardedPush (p % 256))^[p / 256] st := by
  have l1 : (circStep p 0 st).1.length = 5 := by rw [circStep_length]; exact hlen
  have l2 : (circStep p 1 (circStep p 0 st)).1.length = 5 := by
    rw [circStep_length]; exact l1
  have l3 : (circStep p 2 (circStep p 1 (circStep p 0 st))).1.length = 5 := by
    rw [circStep_length]; exact l2
  have l4 : (circStep p 3 (circStep p 2 (circStep p 1 (circStep p 0 st)))).1.length = 5 := by
    rw [circStep_length]; exact l3
  unfold circBucket
  rw [circStep_eq p 4 _ l4, circStep_eq p 3 _ l3, circStep_eq p 2 _ l2,
    circStep_eq p 1 _ l1, circStep_eq p 0 _ hlen]
  have hcase : p / 256 = 0 ∨ p / 256 = 1 ∨ p / 256 = 2 ∨ p / 256 = 3 ∨
      p / 256 = 4 ∨ p / 256 = 5 := by omega
  rcases hcase with h | h | h | h | h | h <;> rw [h] <;> norm_num

theorem circ_foldl_eq (packed : List Nat) (st : List Nat × Nat)
    (hlen : st.1.length = 5) (hb : ∀ p ∈ packed, p / 256 ≤ 5) :
    packed.foldl circBucket st =
      packed.foldl (fun st p => (guardedPush (p % 256))^[p / 256] st) st := by
  induction packed generalizing st with
  | nil => rfl
  | cons p ps ih =>
    rw [List.foldl_cons, List.foldl_cons, circBucket_eq st p hlen (hb p (by simp))]
    exact ih _ (by rw [iterate_guardedPush_length]; exact hlen)
      (fun q hq => hb q (by simp [hq]))

theorem packedRanks_bucket_bound (t : List Nat) (hlen : t.length = 5) :
    ∀ p ∈ packedRanks t, p / 256 ≤ 5 := by
  intro p hp
  rw [(packedRanks_mem_mod t p hp).2]
  calc t.count (p % 256) ≤ t.length := List.count_le_length _ _
  _ = 5 := hlen

theorem circExpand_eq_expand (t : List Nat) (hlen : t.length = 5) :
    circExpandKickers (packedRanks t) = expandKickers (packedRanks t) := by
  unfold circExpandKickers expandKickers
  rw [circ_foldl_eq (packedRanks t) ([0, 0, 0, 0, 0], 0) (by rfl)
    (packedRanks_bucket_bound t hlen)]

/-! ### The guarded expansion never fails under bounds-checked indexing -/

theorem guardedPushChecked_some (r : Nat) (st : List Nat × Nat)
    (hlen : st.1.length = 5) :
    guardedPushChecked r (some st) = some (guardedPush r st) := by
  unfold guardedPushChecked guardedPush writeChecked
  simp only [Option.some_bind]
  by_cases h : st.2 < 5
  · rw [if_pos h, if_pos h, if_pos (show st.2 < st.1.length by omega)]
    rfl
  · rw [if_neg h, if_neg h]

theorem iterate_guardedPushChecked (r c : Nat) (st : List Nat × Nat)
    (hlen : st.1.length = 5) :
    (guardedPushChecked r)^[c] (some st) = some ((guardedPush r)^[c] st) := by
  induction c generalizing st with
  | zero => rfl
  | succ m ih =>
    rw [Function.iterate_succ_apply, Function.iterate_succ_apply,
      guardedPushChecked_some r st hlen]
    exact ih _ (by rw [guardedPush_length]; exact hlen)

theorem checked_foldl_eq (packed : List Nat) (st : List Nat × Nat)
    (hlen : st.1.length = 5) :
    packed.foldl (fun st p => (guardedPushChecked (p % 256))^[p / 256] st) (some st) =
      some (packed.foldl (fun st p => (guardedPush (p % 256))^[p / 256] st) st) := by
  induction packed generalizing st with
  | nil => rfl
  | cons p ps ih =>
    rw [List.foldl_cons, List.foldl_cons, iterate_guardedPushChecked _ _ _ hlen]
    exact ih _ (by rw [iterate_guardedPush_length]; exact hlen)

theorem expandKickersChecked_eq (packed : List Nat) :
    expandKickersChecked packed = some (expandKickers packed) := by
  unfold expandKickersChecked expandKickers
  rw [checked_foldl_eq packed ([0, 0, 0, 0, 0], 0) (by rfl)]
  rfl

theorem evaluate_hand_checked_total (hand : List Nat) :
    evaluate_hand_checked hand = some (evaluate_hand hand) := by
  simp only [evaluate_hand_checked, evaluate_hand, evalFromSorted, codeKickers]
  rw [expandKickersChecked_eq]
  rfl

/-! ### Hand-level facts for valid hands -/

theorem valid_sorted_facts (hand : List Nat) (hv : ValidHand hand) :
    (sortDesc (handRanks hand)).length = 5 ∧
      (sortDesc (handRanks hand)).Pairwise (· ≥ ·) ∧
      ∀ x ∈ sortDesc (handRanks hand), x < 13 := by
  obtain ⟨hlen, _, hmem⟩ := hv
  refine ⟨?_, sortDesc_sorted _, ?_⟩
  · rw [sortDesc_length, handRanks, List.length_map, hlen]
  · intro x hx
    have hx' := (sortDesc_perm _).mem_iff.mp hx
    obtain ⟨c, hc, rfl⟩ := List.mem_map.mp hx'
    have := hmem c hc
    unfold rankOf
    omega

theorem specNumCount_perm {l m : List Nat} (h : l.Perm m) (k : Nat) :
    specNumCount l k = specNumCount m k := by
  unfold specNumCount
  congr 1
  apply List.filter_congr
  intro r _
  rw [h.count_eq]

theorem specKickersRaw_congr {l m : List Nat} (h : l.Perm m) :
    specKickersRaw l = specKickersRaw m := by
  unfold specKickersRaw
  have hfun : l.map (fun r => l.count r * 13 + r) = l.map (fun r => m.count r * 13 + r) := by
    apply List.map_congr_left
    intro r _
    rw [h.count_eq]
  rw [hfun, sortDesc_congr (h.map _)]

theorem specKickersRaw_length (t : List Nat) : (specKickersRaw t).length = t.length := by
  unfold specKickersRaw
  rw [List.length_map, sortDesc_length, List.length_map]

theorem specKickersRaw_bounds (t : List Nat) : ∀ x ∈ specKickersRaw t, x ≤ 12 := by
  intro x hx
  obtain ⟨y, _, rfl⟩ := List.mem_map.mp hx
  omega

theorem specKickers_length (t : List Nat) (hlen : t.length = 5) :
    (specKickers t).length = 5 := by
  unfold specKickers
  split
  · rfl
  · rw [specKickersRaw_length, hlen]

theorem specKickers_bounds (t : List Nat) : ∀ x ∈ specKickers t, x ≤ 12 := by
  unfold specKickers
  split
  · intro x hx
    simp only [List.mem_cons, List.not_mem_nil, or_false] at hx
    rcases hx with rfl | rfl | rfl | rfl | rfl <;> omega
  · exact specKickersRaw_bounds t

theorem flush_ranks_nodup (hand : List Nat) (hv : ValidHand hand)
    (hf : isFlush hand = true) : (sortDesc (handRanks hand)).Nodup := by
  rw [(sortDesc_perm _).nodup_iff]
  obtain ⟨hlen, hnd, _⟩ := hv
  obtain ⟨c0, c1, c2, c3, c4, rfl⟩ := exists_five hand hlen
  have hfr : isFlush [c0, c1, c2, c3, c4] =
      ((c0 % 4 == c1 % 4) && (c0 % 4 == c2 % 4) && (c0 % 4 == c3 % 4) &&
        (c0 % 4 == c4 % 4)) := rfl
  rw [hfr] at hf
  simp only [Bool.and_eq_true, beq_iff_eq] at hf
  obtain ⟨⟨⟨h1, h2⟩, h3⟩, h4⟩ := hf
  show ([c0, c1, c2, c3, c4].map rankOf).Nodup
  have hmap : [c0, c1, c2, c3, c4].map rankOf =
      [c0 / 4, c1 / 4, c2 / 4, c3 / 4, c4 / 4] := rfl
  rw [hmap]
  simp only [List.nodup_cons, List.mem_cons, List.not_mem_nil, or_false, not_or,
    List.nodup_nil, and_true, not_false_iff, true_and] at hnd ⊢
  omega

theorem isFlush_eq_specFlush (hand : List Nat) (hlen : hand.length = 5) :
    isFlush hand = specFlush hand := by
  obtain ⟨c0, c1, c2, c3, c4, rfl⟩ := exists_five hand hlen
  have hfr : isFlush [c0, c1, c2, c3, c4] =
      ((c0 % 4 == c1 % 4) && (c0 % 4 == c2 % 4) && (c0 % 4 == c3 % 4) &&
        (c0 % 4 == c4 % 4)) := rfl
  have hsp : specFlush [c0, c1, c2, c3, c4] =
      ((c0 % 4 == c0 % 4) && ((c1 % 4 == c0 % 4) && ((c2 % 4 == c0 % 4) &&
        ((c3 % 4 == c0 % 4) && ((c4 % 4 == c0 % 4) && true))))) := rfl
  rw [hfr, hsp, Bool.eq_iff_iff]
  simp only [Bool.and_eq_true, beq_iff_eq, and_true, true_and]
  omega

theorem isFlush_iff_allEq (hand : List Nat) (hlen : hand.length = 5) :
    isFlush hand = true ↔ ∀ x ∈ hand, ∀ y ∈ hand, x % 4 = y % 4 := by
  obtain ⟨c0, c1, c2, c3, c4, rfl⟩ := exists_five hand hlen
  have hfr : isFlush [c0, c1, c2, c3, c4] =
      ((c0 % 4 == c1 % 4) && (c0 % 4 == c2 % 4) && (c0 % 4 == c3 % 4) &&
        (c0 % 4 == c4 % 4)) := rfl
  rw [hfr]
  simp only [Bool.and_eq_true, beq_iff_eq, List.mem_cons, List.not_mem_nil, or_false]
  constructor
  · intro ⟨⟨⟨h1, h2⟩, h3⟩, h4⟩ x hx y hy
    rcases hx with rfl | rfl | rfl | rfl | rfl <;>
      rcases hy with rfl | rfl | rfl | rfl | rfl <;> omega
  · intro h
    refine ⟨⟨⟨?_, ?_⟩, ?_⟩, ?_⟩ <;>
      exact h _ (by tauto) _ (by tauto)

theorem hand_category_facts (hand : List Nat) (hv : ValidHand hand) (f : Bool)
    (hf : f = true → (sortDesc (handRanks hand)).Nodup) :
    handRankOf (sortDesc (handRanks hand)) f =
        specCategory (sortDesc (handRanks hand)) f ∧
      specCategory (sortDesc (handRanks hand)) f ≤ 8 ∧
      (codeIndicators (sortDesc (handRanks hand)) f).countP (fun b => b) = 1 := by
  obtain ⟨hlen5, hsort, hmem13⟩ := valid_sorted_facts hand hv
  set t := sortDesc (handRanks hand) with ht
  have hst : isStraight t = specIsStraight t := straight_agree t hsort hlen5 hmem13
  have hq : isFourOfAKind t = (specNumCount t 4 == 1) := rfl
  have hfh : isFullHouse t = (specNumCount t 3 == 1 && specNumCount t 2 == 1) := rfl
  have ht3 : isThreeOfAKind t = (specNumCount t 3 == 1 && specNumCount t 2 == 0) := rfl
  have hp2 : isTwoPair t = (specNumCount t 2 == 2) := rfl
  have hp1 : isOnePair t = (specNumCount t 2 == 1 && specNumCount t 3 == 0) := rfl
  obtain ⟨h4, h3, h2, hx1, hx2⟩ := counts_structure t hlen5
  have hsps : specIsStraight t = true →
      specNumCount t 4 = 0 ∧ specNumCount t 3 = 0 ∧ specNumCount t 2 = 0 := by
    intro hs
    have hnd := specStraight_nodup t hs
    exact ⟨nodup_specNumCount t hnd 4 (by omega), nodup_specNumCount t hnd 3 (by omega),
      nodup_specNumCount t hnd 2 (by omega)⟩
  obtain ⟨hc1, hc2, hc3⟩ := category_core (specIsStraight t) f (specNumCount t 4)
    (specNumCount t 3) (specNumCount t 2) h4 h3 h2 hx1 hx2 hsps
  refine ⟨?_, hc2, ?_⟩
  · show hrSum (isStraight t) (isFourOfAKind t) (isFullHouse t) (isThreeOfAKind t)
      (isTwoPair t) (isOnePair t) f = _
    rw [hst, hq, hfh, ht3, hp2, hp1]
    exact hc1
  · show (indList (isStraight t) (isFourOfAKind t) (isFullHouse t) (isThreeOfAKind t)
      (isTwoPair t) (isOnePair t) f).countP (fun b => b) = 1
    rw [hst, hq, hfh, ht3, hp2, hp1]
    exact hc3

theorem hand_kicker_facts (hand : List Nat) (hv : ValidHand hand) :
    codeKickers (sortDesc (handRanks hand)) = specKickers (sortDesc (handRanks hand)) := by
  obtain ⟨hlen5, hsort, hmem13⟩ := valid_sorted_facts hand hv
  set t := sortDesc (handRanks hand) with ht
  show wheelMux (isWheel t) (expandKickers (packedRanks t)) = specKickers t
  rw [wheel_agree t hsort hlen5, expand_eq_specKickersRaw t hlen5 hmem13]
  unfold specKickers
  cases hw : specIsWheelSet t
  · rw [if_neg (by simp [hw]), wheelMux_false _ (by rw [specKickersRaw_length, hlen5])]
  · rw [if_pos rfl, wheelMux_true]

/-! ### Lexicographic reading of the packed score -/

theorem digit_lt_iff (K a b r s : Nat) (hr : r < K) (hs : s < K) :
    b * K + s < a * K + r ↔ (b < a ∨ (a = b ∧ s < r)) := by
  constructor
  · intro h
    rcases Nat.lt_trichotomy b a with hab | rfl | hab
    · exact Or.inl hab
    · exact Or.inr ⟨rfl, by omega⟩
    · exfalso
      have hm : a * K + K ≤ b * K := by
        have := Nat.mul_le_mul_right K (show a + 1 ≤ b by omega)
        rw [Nat.add_mul, one_mul] at this
        exact this
      omega
  · intro h
    rcases h with hab | ⟨rfl, hsr⟩
    · have hm : b * K + K ≤ a * K := by
        have := Nat.mul_le_mul_right K (show b + 1 ≤ a by omega)
        rw [Nat.add_mul, one_mul] at this
        exact this
      omega
    · omega

theorem pack_lt_iff (a b x1 x2 x3 x4 x5 y1 y2 y3 y4 y5 : Nat)
    (ha : a ≤ 8) (hb : b ≤ 8) (hx1 : x1 ≤ 12) (hx2 : x2 ≤ 12) (hx3 : x3 ≤ 12)
    (hx4 : x4 ≤ 12) (hx5 : x5 ≤ 12) (hy1 : y1 ≤ 12) (hy2 : y2 ≤ 12) (hy3 : y3 ≤ 12)
    (hy4 : y4 ≤ 12) (hy5 : y5 ≤ 12) :
    (b * 1048576 + (y1 * 65536 + (y2 * 4096 + (y3 * 256 + (y4 * 16 + y5)))) <
        a * 1048576 + (x1 * 65536 + (x2 * 4096 + (x3 * 256 + (x4 * 16 + x5))))) ↔
      (b < a ∨ (a = b ∧ (y1 < x1 ∨ (x1 = y1 ∧ (y2 < x2 ∨ (x2 = y2 ∧ (y3 < x3 ∨
        (x3 = y3 ∧ (y4 < x4 ∨ (x4 = y4 ∧ (y5 < x5 ∨ (x5 = y5 ∧ False)))))))))))) := by
  rw [digit_lt_iff 1048576 a b _ _ (by omega) (by omega),
    digit_lt_iff 65536 x1 y1 _ _ (by omega) (by omega),
    digit_lt_iff 4096 x2 y2 _ _ (by omega) (by omega),
    digit_lt_iff 256 x3 y3 _ _ (by omega) (by omega),
    digit_lt_iff 16 x4 y4 _ _ (by omega) (by omega)]
  tauto

theorem pack_eq_iff (a b x1 x2 x3 x4 x5 y1 y2 y3 y4 y5 : Nat)
    (ha : a ≤ 8) (hb : b ≤ 8) (hx1 : x1 ≤ 12) (hx2 : x2 ≤ 12) (hx3 : x3 ≤ 12)
    (hx4 : x4 ≤ 12) (hx5 : x5 ≤ 12) (hy1 : y1 ≤ 12) (hy2 : y2 ≤ 12) (hy3 : y3 ≤ 12)
    (hy4 : y4 ≤ 12) (hy5 : y5 ≤ 12) :
    (a * 1048576 + (x1 * 65536 + (x2 * 4096 + (x3 * 256 + (x4 * 16 + x5)))) =
        b * 1048576 + (y1 * 65536 + (y2 * 4096 + (y3 * 256 + (y4 * 16 + y5))))) ↔
      (a = b ∧ x1 = y1 ∧ x2 = y2 ∧ x3 = y3 ∧ x4 = y4 ∧ x5 = y5) := by
  omega

/-! ### The score of a valid hand in reference form -/

theorem eval_spec_form (hand : List Nat) (hv : ValidHand hand) :
    evaluate_hand hand =
        specCatOfHand hand * 1048576 + packKickers (specKickersOfHand hand) ∧
      specCatOfHand hand ≤ 8 ∧
      ∃ k1 k2 k3 k4 k5, specKickersOfHand hand = [k1, k2, k3, k4, k5] ∧
        k1 ≤ 12 ∧ k2 ≤ 12 ∧ k3 ≤ 12 ∧ k4 ≤ 12 ∧ k5 ≤ 12 := by
  obtain ⟨hlen5, hsort, hmem13⟩ := valid_sorted_facts hand hv
  have hcat := hand_category_facts hand hv (isFlush hand) (flush_ranks_nodup hand hv)
  have hkick := hand_kicker_facts hand hv
  have hklen : (specKickersOfHand hand).length = 5 := specKickers_length _ hlen5
  obtain ⟨k1, k2, k3, k4, k5, hks⟩ := exists_five _ hklen
  have hball : ∀ x ∈ [k1, k2, k3, k4, k5], x ≤ 12 := by
    intro x hx
    apply specKickers_bounds (sortDesc (handRanks hand))
    show x ∈ specKickersOfHand hand
    rw [hks]
    exact hx
  have hceq : specCatOfHand hand =
      specCategory (sortDesc (handRanks hand)) (isFlush hand) := by
    show specCategory _ (specFlush hand) = _
    rw [isFlush_eq_specFlush hand hv.1]
  refine ⟨?_, by rw [hceq]; exact hcat.2.1, k1, k2, k3, k4, k5, hks,
    hball k1 (by simp), hball k2 (by simp), hball k3 (by simp), hball k4 (by simp),
    hball k5 (by simp)⟩
  show assembleScore (handRankOf (sortDesc (handRanks hand)) (isFlush hand))
      (codeKickers (sortDesc (handRanks hand))) = _
  have hckd : codeKickers (sortDesc (handRanks hand)) = [k1, k2, k3, k4, k5] := by
    rw [hkick]
    exact hks
  rw [hckd, hcat.1, ← hceq, hks]
  rw [assembleScore_eq (specCatOfHand hand) k1 k2 k3 k4 k5
    (by rw [hceq]; have := hcat.2.1; omega) (by have := hball k1 (by simp); omega)
    (by have := hball k2 (by simp); omega) (by have := hball k3 (by simp); omega)
    (by have := hball k4 (by simp); omega) (by have := hball k5 (by simp); omega)]
  rw [show packKickers [k1, k2, k3, k4, k5] =
    k1 * 65536 + k2 * 4096 + k3 * 256 + k4 * 16 + k5 from rfl]
  ring

/-! ### The circuit copy agrees with the standalone evaluator -/

theorem circuit_eq (hand : List Nat) (hv : ValidHand hand) :
    evaluate_hand_circuit hand = evaluate_hand hand := by
  obtain ⟨hlen5, hsort, hmem13⟩ := valid_sorted_facts hand hv
  have hcat := hand_category_facts hand hv (isFlush hand) (flush_ranks_nodup hand hv)
  have hkick := hand_kicker_facts hand hv
  have hklen : (specKickers (sortDesc (handRanks hand))).length = 5 :=
    specKickers_length _ hlen5
  obtain ⟨k1, k2, k3, k4, k5, hks⟩ := exists_five _ hklen
  have hball : ∀ x ∈ [k1, k2, k3, k4, k5], x ≤ 12 := by
    intro x hx
    apply specKickers_bounds (sortDesc (handRanks hand))
    rw [hks]
    exact hx
  have hckd : codeKickers (sortDesc (handRanks hand)) = [k1, k2, k3, k4, k5] :=
    hkick.trans hks
  show evalCircuitFromSorted (sortDesc (handRanks hand)) (isFlush hand) =
    evalFromSorted (sortDesc (handRanks hand)) (isFlush hand)
  unfold evalCircuitFromSorted evalFromSorted
  have hck : circKickers (sortDesc (handRanks hand)) =
      codeKickers (sortDesc (handRanks hand)) := by
    unfold circKickers codeKickers
    rw [circExpand_eq_expand _ hlen5]
  rw [hck, hckd, hcat.1, assembleScoreMul_eq,
    assembleScore_eq _ k1 k2 k3 k4 k5 (by have := hcat.2.1; omega)
      (by have := hball k1 (by simp); omega) (by have := hball k2 (by simp); omega)
      (by have := hball k3 (by simp); omega) (by have := hball k4 (by simp); omega)
      (by have := hball k5 (by simp); omega)]

/-! ### Branch-free running maximum -/

theorem mux_max (m s : Nat) :
    (decide (m < s)).toNat * s + (!decide (m < s)).toNat * m = max m s := by
  by_cases h : m < s
  · rw [decide_eq_true h]
    simp
    omega
  · rw [decide_eq_false h]
    simp
    omega

theorem foldl_ext_mem {α β : Type} (f g : β → α → β) (l : List α) (b : β)
    (h : ∀ b' : β, ∀ a ∈ l, f b' a = g b' a) : l.foldl f b = l.foldl g b := by
  induction l generalizing b with
  | nil => rfl
  | cons x xs ih =>
    rw [List.foldl_cons, List.foldl_cons, h b x (by simp)]
    exact ih _ (fun b' a ha => h b' a (by simp [ha]))

theorem le_foldl_max (l : List Nat) (a : Nat) : a ≤ l.foldl max a := by
  induction l generalizing a with
  | nil => exact Nat.le_refl a
  | cons x xs ih => exact Nat.le_trans (Nat.le_max_left a x) (ih (max a x))

theorem foldl_max_ub (l : List Nat) (a : Nat) : ∀ x ∈ l, x ≤ l.foldl max a := by
  induction l generalizing a with
  | nil =>
    intro x hx
    cases hx
  | cons y ys ih =>
    intro x hx
    rcases List.mem_cons.mp hx with rfl | hx
    · exact Nat.le_trans (Nat.le_max_right a x) (le_foldl_max ys (max a x))
    · exact ih (max a y) x hx

theorem foldl_max_mem (l : List Nat) (a : Nat) :
    l.foldl max a = a ∨ l.foldl max a ∈ l := by
  induction l generalizing a with
  | nil => exact Or.inl rfl
  | cons x xs ih =>
    rcases ih (max a x) with h | h
    · rw [List.foldl_cons, h]
      rcases Nat.le_total x a with hxa | hxa
      · exact Or.inl (Nat.max_eq_left hxa)
      · exact Or.inr (by rw [Nat.max_eq_right hxa]; exact List.mem_cons_self x xs)
    · exact Or.inr (List.mem_cons_of_mem x h)

theorem foldl_max_zero_mem (l : List Nat) (hne : l ≠ []) : l.foldl max 0 ∈ l := by
  rcases foldl_max_mem l 0 with h0 | h
  · cases l with
    | nil => exact absurd rfl hne
    | cons x xs =>
      have hub := foldl_max_ub (x :: xs) 0 x (by simp)
      rw [h0] at hub
      have hx0 : x = 0 := Nat.le_zero.mp hub
      rw [h0, ← hx0]
      exact List.mem_cons_self x xs
  · exact h

/-! ### The combination table covers every 5-of-7 selection -/

theorem combos_perm : COMBINATIONS.Perm (List.sublistsLen 5 (List.range 7)) := by
  decide

theorem combos_facts : ∀ c ∈ COMBINATIONS, c.Nodup ∧ c.length = 5 ∧ ∀ i ∈ c, i < 7 := by
  decide

theorem sublistsLen_seven (a b c d e f g : Nat) :
    List.sublistsLen 5 [a, b, c, d, e, f, g] =
      (List.sublistsLen 5 (List.range 7)).map (selectHand [a, b, c, d, e, f, g]) := by
  rfl

theorem getD_mem_of_lt (l : List Nat) (i : Nat) (h : i < l.length) : l.getD i 0 ∈ l := by
  rw [List.getD_eq_getElem l 0 h]
  exact List.getElem_mem h

theorem getD_inj (l : List Nat) (hnd : l.Nodup) (i j : Nat) (hi : i < l.length)
    (hj : j < l.length) (h : l.getD i 0 = l.getD j 0) : i = j := by
  rw [List.getD_eq_getElem l 0 hi, List.getD_eq_getElem l 0 hj] at h
  exact (List.Nodup.getElem_inj_iff hnd).mp h

theorem select_valid (seven combo : List Nat) (hv : ValidSeven seven)
    (hc : combo.Nodup ∧ combo.length = 5 ∧ ∀ i ∈ combo, i < 7) :
    ValidHand (selectHand seven combo) := by
  obtain ⟨hlen7, hnd7, hmem7⟩ := hv
  obtain ⟨hndc, hlenc, hmemc⟩ := hc
  refine ⟨by rw [selectHand, List.length_map, hlenc], ?_, ?_⟩
  · apply List.Nodup.map_on ?_ hndc
    intro x hx y hy hxy
    exact getD_inj seven hnd7 x y (by rw [hlen7]; exact hmemc x hx)
      (by rw [hlen7]; exact hmemc y hy) hxy
  · intro c hcm
    obtain ⟨i, hi, rfl⟩ := List.mem_map.mp hcm
    exact hmem7 _ (getD_mem_of_lt seven i (by rw [hlen7]; exact hmemc i hi))

/-! ### The claims -/

/-- Claim C1: for every pair of valid 5-card hands A and B,
`evaluate_hand A > evaluate_hand B` exactly when A beats B under the
reference order (higher category, or equal category and greater ordered
kickers), and the scores are equal exactly when the hands are tied (same
category and same ordered kickers). -/
theorem evaluate_hand_total_order (A B : List Nat) (hA : ValidHand A)
    (hB : ValidHand B) :
    (evaluate_hand B < evaluate_hand A ↔ SpecBeats A B) ∧
      (evaluate_hand A = evaluate_hand B ↔ SpecTied A B) := by
  obtain ⟨hEA, hcatA, x1, x2, x3, x4, x5, hksA, hA1, hA2, hA3, hA4, hA5⟩ :=
    eval_spec_form A hA
  obtain ⟨hEB, hcatB, y1, y2, y3, y4, y5, hksB, hB1, hB2, hB3, hB4, hB5⟩ :=
    eval_spec_form B hB
  have hpA : packKickers (specKickersOfHand A) =
      x1 * 65536 + (x2 * 4096 + (x3 * 256 + (x4 * 16 + x5))) := by
    rw [hksA]
    show x1 * 65536 + x2 * 4096 + x3 * 256 + x4 * 16 + x5 = _
    ring
  have hpB : packKickers (specKickersOfHand B) =
      y1 * 65536 + (y2 * 4096 + (y3 * 256 + (y4 * 16 + y5))) := by
    rw [hksB]
    show y1 * 65536 + y2 * 4096 + y3 * 256 + y4 * 16 + y5 = _
    ring
  constructor
  · rw [hEA, hEB, hpA, hpB, pack_lt_iff (specCatOfHand A) (specCatOfHand B)
      x1 x2 x3 x4 x5 y1 y2 y3 y4 y5 hcatA hcatB hA1 hA2 hA3 hA4 hA5 hB1 hB2 hB3
      hB4 hB5]
    unfold SpecBeats
    rw [hksA, hksB]
    exact Iff.rfl
  · rw [hEA, hEB, hpA, hpB, pack_eq_iff (specCatOfHand A) (specCatOfHand B)
      x1 x2 x3 x4 x5 y1 y2 y3 y4 y5 hcatA hcatB hA1 hA2 hA3 hA4 hA5 hB1 hB2 hB3
      hB4 hB5]
    unfold SpecTied
    rw [hksA, hksB]
    simp only [List.cons.injEq, and_true]

theorem evaluate_hand_total_order_witness :
    ValidHand [44, 45, 46, 40, 41] ∧ ValidHand [0, 5, 10, 17, 22] ∧
      ((evaluate_hand [0, 5, 10, 17, 22] < evaluate_hand [44, 45, 46, 40, 41] ↔
          SpecBeats [44, 45, 46, 40, 41] [0, 5, 10, 17, 22]) ∧
        (evaluate_hand [44, 45, 46, 40, 41] = evaluate_hand [0, 5, 10, 17, 22] ↔
          SpecTied [44, 45, 46, 40, 41] [0, 5, 10, 17, 22])) :=
  ⟨by unfold ValidHand; decide, by unfold ValidHand; decide,
    evaluate_hand_total_order [44, 45, 46, 40, 41] [0, 5, 10, 17, 22]
      (by unfold ValidHand; decide) (by unfold ValidHand; decide)⟩

/-- Claim C2: the standalone `evaluate_hand` of `hand_eval.rs` is total under
bounds-checked indexing and returns a definite score on every input, but the
copy inlined in the `determine_winner` circuit of `lib.rs` performs an
out-of-bounds access `ordered_kickers[kicker_idx]` with `kicker_idx = 5`
during its unrolled kicker expansion: on the valid hand `[0, 4, 8, 12, 17]`
its bounds-checked run produces no value. -/
theorem evaluate_hand_totality_oob (hand : List Nat) :
    evaluate_hand_checked hand = some (evaluate_hand hand) ∧
      ValidHand [0, 4, 8, 12, 17] ∧
      evaluate_hand_circuit_checked [0, 4, 8, 12, 17] = none :=
  ⟨evaluate_hand_checked_total hand, by unfold ValidHand; decide, by decide⟩

/-- Claim C3: for seven distinct valid cards, `find_best_hand_from_seven`
returns the maximum of `evaluate_hand` over all 21 five-card subsets: the
result is the score of one of the subsets and no subset scores higher. -/
theorem find_best_hand_complete (seven : List Nat) (hv : ValidSeven seven) :
    (List.sublistsLen 5 seven).length = 21 ∧
      find_best_hand_from_seven seven ∈ (List.sublistsLen 5 seven).map evaluate_hand ∧
      ∀ s ∈ (List.sublistsLen 5 seven).map evaluate_hand,
        s ≤ find_best_hand_from_seven seven := by
  have hlen7 := hv.1
  have hfold : find_best_hand_from_seven seven =
      (COMBINATIONS.map (fun c => evaluate_hand (selectHand seven c))).foldl max 0 := by
    unfold find_best_hand_from_seven
    rw [List.foldl_map]
    refine foldl_ext_mem _ _ COMBINATIONS 0 ?_
    intro m c hc
    show (decide (m < evaluate_hand_circuit (selectHand seven c))).toNat *
          evaluate_hand_circuit (selectHand seven c) +
        (!decide (m < evaluate_hand_circuit (selectHand seven c))).toNat * m =
      max m (evaluate_hand (selectHand seven c))
    rw [circuit_eq (selectHand seven c) (select_valid seven c hv (combos_facts c hc))]
    exact mux_max m (evaluate_hand (selectHand seven c))
  have hmap : (List.sublistsLen 5 seven).map evaluate_hand =
      (List.sublistsLen 5 (List.range 7)).map
        (fun c => evaluate_hand (selectHand seven c)) := by
    obtain ⟨a, b, c, d, e, f, g, rfl⟩ := exists_seven seven hlen7
    rw [sublistsLen_seven a b c d e f g, List.map_map]
    rfl
  have hperm : (COMBINATIONS.map (fun c => evaluate_hand (selectHand seven c))).Perm
      ((List.sublistsLen 5 seven).map evaluate_hand) := by
    rw [hmap]
    exact combos_perm.map _
  refine ⟨?_, ?_, ?_⟩
  · rw [List.length_sublistsLen, hlen7]
    decide
  · rw [hfold]
    exact hperm.mem_iff.mp (foldl_max_zero_mem _ (by simp [COMBINATIONS]))
  · intro s hs
    rw [hfold]
    exact foldl_max_ub _ 0 s (hperm.mem_iff.mpr hs)

theorem find_best_hand_complete_witness :
    ValidSeven [0, 1, 2, 3, 4, 5, 6] ∧
      ((List.sublistsLen 5 ([0, 1, 2, 3, 4, 5, 6] : List Nat)).length = 21 ∧
        find_best_hand_from_seven [0, 1, 2, 3, 4, 5, 6] ∈
          (List.sublistsLen 5 ([0, 1, 2, 3, 4, 5, 6] : List Nat)).map evaluate_hand ∧
        ∀ s ∈ (List.sublistsLen 5 ([0, 1, 2, 3, 4, 5, 6] : List Nat)).map evaluate_hand,
          s ≤ find_best_hand_from_seven [0, 1, 2, 3, 4, 5, 6]) :=
  ⟨by unfold ValidSeven; decide,
    find_best_hand_complete [0, 1, 2, 3, 4, 5, 6] (by unfold ValidSeven; decide)⟩

/-- Claim C4: `determine_winner` returns 0 when player 1's best-of-seven
score is strictly greater, 1 when player 2's is strictly greater, 2 exactly
when the scores are equal; the result is always at most 2, and exactly one
of the three multiplexer guards is active. -/
theorem determine_winner_ternary (p1 p2 board : List Nat) :
    determine_winner p1 p2 board =
        (if find_best_hand_from_seven (sevenCards p2 board) <
              find_best_hand_from_seven (sevenCards p1 board) then 0
          else if find_best_hand_from_seven (sevenCards p1 board) <
              find_best_hand_from_seven (sevenCards p2 board) then 1
          else 2) ∧
      determine_winner p1 p2 board ≤ 2 ∧
      (determine_winner p1 p2 board = 2 ↔
        find_best_hand_from_seven (sevenCards p1 board) =
          find_best_hand_from_seven (sevenCards p2 board)) ∧
      (winnerFlags p1 p2 board).countP (fun b => b) = 1 := by
  set s1 := find_best_hand_from_seven (sevenCards p1 board)
  set s2 := find_best_hand_from_seven (sevenCards p2 board)
  have hdw : determine_winner p1 p2 board =
      (decide (s2 < s1)).toNat * 0 + (decide (s1 < s2)).toNat * 1 +
        (!decide (s2 < s1) && !decide (s1 < s2)).toNat * 2 := rfl
  have hwf : winnerFlags p1 p2 board =
      [decide (s2 < s1), decide (s1 < s2), !decide (s2 < s1) && !decide (s1 < s2)] :=
    rfl
  rw [hdw, hwf]
  rcases Nat.lt_trichotomy s1 s2 with h | h | h
  · have hns : ¬ s2 < s1 := by omega
    rw [decide_eq_false hns, decide_eq_true h, if_neg hns, if_pos h]
    refine ⟨rfl, by decide, ?_, rfl⟩
    show (1 : Nat) = 2 ↔ s1 = s2
    constructor <;> intro h2 <;> omega
  · have hn1 : ¬ s2 < s1 := by omega
    have hn2 : ¬ s1 < s2 := by omega
    rw [decide_eq_false hn1, decide_eq_false hn2, if_neg hn1, if_neg hn2]
    exact ⟨rfl, by decide, ⟨fun _ => h, fun _ => rfl⟩, rfl⟩
  · have hn2 : ¬ s1 < s2 := by omega
    rw [decide_eq_true h, decide_eq_false hn2, if_pos h]
    refine ⟨rfl, by decide, ?_, rfl⟩
    show (0 : Nat) = 2 ↔ s1 = s2
    constructor <;> intro h2 <;> omega

/-- Claim C5: a hand whose ranks are the wheel `{Ace, 5, 4, 3, 2}` scores
category 4 (straight) with mixed suits and category 8 (straight flush) with
equal suits, in both cases with ordered kickers `[5, 4, 3, 2, Ace]`
(`[3, 2, 1, 0, 12]` as rank values), and scores strictly below the
corresponding 6-high straight hand of the same flush status. -/
theorem wheel_straight_eval (hand hand6 : List Nat) (hv : ValidHand hand)
    (hv6 : ValidHand hand6) (hw : (handRanks hand).Perm [12, 3, 2, 1, 0])
    (h6 : (handRanks hand6).Perm [4, 3, 2, 1, 0])
    (hf : isFlush hand = isFlush hand6) :
    (isFlush hand = false →
        evaluate_hand hand = 4 * 1048576 + packKickers [3, 2, 1, 0, 12]) ∧
      (isFlush hand = true →
        evaluate_hand hand = 8 * 1048576 + packKickers [3, 2, 1, 0, 12]) ∧
      evaluate_hand hand < evaluate_hand hand6 := by
  have hs : sortDesc (handRanks hand) = [12, 3, 2, 1, 0] :=
    sortDesc_eq_of_perm_sorted hw (by decide)
  have hs6 : sortDesc (handRanks hand6) = [4, 3, 2, 1, 0] :=
    sortDesc_eq_of_perm_sorted h6 (by decide)
  have he : evaluate_hand hand = evalFromSorted [12, 3, 2, 1, 0] (isFlush hand) := by
    unfold evaluate_hand
    rw [hs]
  have he6 : evaluate_hand hand6 = evalFromSorted [4, 3, 2, 1, 0] (isFlush hand6) := by
    unfold evaluate_hand
    rw [hs6]
  refine ⟨?_, ?_, ?_⟩
  · intro hff
    rw [he, hff]
    decide
  · intro hft
    rw [he, hft]
    decide
  · rw [he, he6, ← hf]
    cases hfc : isFlush hand
    · decide
    · decide

theorem wheel_straight_eval_witness :
    ValidHand [48, 12, 8, 4, 1] ∧ ValidHand [16, 12, 8, 4, 1] ∧
      (handRanks [48, 12, 8, 4, 1]).Perm [12, 3, 2, 1, 0] ∧
      (handRanks [16, 12, 8, 4, 1]).Perm [4, 3, 2, 1, 0] ∧
      isFlush [48, 12, 8, 4, 1] = isFlush [16, 12, 8, 4, 1] ∧
      ((isFlush [48, 12, 8, 4, 1] = false →
          evaluate_hand [48, 12, 8, 4, 1] = 4 * 1048576 + packKickers [3, 2, 1, 0, 12]) ∧
        (isFlush [48, 12, 8, 4, 1] = true →
          evaluate_hand [48, 12, 8, 4, 1] = 8 * 1048576 + packKickers [3, 2, 1, 0, 12]) ∧
        evaluate_hand [48, 12, 8, 4, 1] < evaluate_hand [16, 12, 8, 4, 1]) :=
  ⟨by unfold ValidHand; decide, by unfold ValidHand; decide, by decide, by decide,
    by decide,
    wheel_straight_eval [48, 12, 8, 4, 1] [16, 12, 8, 4, 1]
      (by unfold ValidHand; decide) (by unfold ValidHand; decide) (by decide)
      (by decide) (by decide)⟩

/-- Claim C6: for every valid 5-card hand the category sum equals the
reference priority resolution (straight flush 8 over quads 7 over full house
6 over flush 5 over straight 4 over trips 3 over two pair 2 over one pair 1
over high card 0), the category is at most 8, and exactly one of the nine
exclusive category indicators is true. -/
theorem category_resolution_exclusive (hand : List Nat) (hv : ValidHand hand) :
    handRankOf (sortDesc (handRanks hand)) (isFlush hand) = specCatOfHand hand ∧
      specCatOfHand hand ≤ 8 ∧
      (codeIndicators (sortDesc (handRanks hand)) (isFlush hand)).countP
        (fun b => b) = 1 := by
  have hcat := hand_category_facts hand hv (isFlush hand) (flush_ranks_nodup hand hv)
  have hceq : specCatOfHand hand =
      specCategory (sortDesc (handRanks hand)) (isFlush hand) := by
    show specCategory _ (specFlush hand) = _
    rw [isFlush_eq_specFlush hand hv.1]
  exact ⟨by rw [hceq]; exact hcat.1, by rw [hceq]; exact hcat.2.1, hcat.2.2⟩

theorem category_resolution_exclusive_witness :
    ValidHand [0, 6, 11, 17, 23] ∧
      (handRankOf (sortDesc (handRanks [0, 6, 11, 17, 23]))
          (isFlush [0, 6, 11, 17, 23]) = specCatOfHand [0, 6, 11, 17, 23] ∧
        specCatOfHand [0, 6, 11, 17, 23] ≤ 8 ∧
        (codeIndicators (sortDesc (handRanks [0, 6, 11, 17, 23]))
          (isFlush [0, 6, 11, 17, 23])).countP (fun b => b) = 1) :=
  ⟨by unfold ValidHand; decide,
    category_resolution_exclusive [0, 6, 11, 17, 23] (by unfold ValidHand; decide)⟩

/-- Claim C7: for every valid 5-card hand that is not a wheel, the ordered
kickers computed by `evaluate_hand` are the hand's ranks sorted by histogram
count descending then rank descending, each rank repeated count times, and
the low 20 bits of the score pack exactly those kickers. -/
theorem kicker_ordering (hand : List Nat) (hv : ValidHand hand)
    (hnw : ¬ (handRanks hand).Perm [12, 3, 2, 1, 0]) :
    codeKickers (sortDesc (handRanks hand)) = specKickersRaw (handRanks hand) ∧
      evaluate_hand hand % 1048576 = packKickers (specKickersRaw (handRanks hand)) := by
  have hkick := hand_kicker_facts hand hv
  have hwfalse : specIsWheelSet (sortDesc (handRanks hand)) = false := by
    cases h : specIsWheelSet (sortDesc (handRanks hand)) with
    | false => rfl
    | true =>
      exact absurd ((sortDesc_perm (handRanks hand)).symm.trans
        ((specIsWheelSet_iff _).mp h)) hnw
  have hraw : specKickers (sortDesc (handRanks hand)) =
      specKickersRaw (handRanks hand) := by
    unfold specKickers
    rw [if_neg (by simp [hwfalse])]
    exact specKickersRaw_congr (sortDesc_perm _)
  obtain ⟨hE, hcat8, k1, k2, k3, k4, k5, hks, hb1, hb2, hb3, hb4, hb5⟩ :=
    eval_spec_form hand hv
  refine ⟨hkick.trans hraw, ?_⟩
  have hsk : specKickersOfHand hand = specKickersRaw (handRanks hand) := hraw
  rw [hE, ← hsk, hks]
  rw [show packKickers [k1, k2, k3, k4, k5] =
    k1 * 65536 + k2 * 4096 + k3 * 256 + k4 * 16 + k5 from rfl]
  omega

theorem kicker_ordering_witness :
    ValidHand [48, 49, 44, 45, 40] ∧
      ¬ (handRanks [48, 49, 44, 45, 40]).Perm [12, 3, 2, 1, 0] ∧
      (codeKickers (sortDesc (handRanks [48, 49, 44, 45, 40])) =
          specKickersRaw (handRanks [48, 49, 44, 45, 40]) ∧
        evaluate_hand [48, 49, 44, 45, 40] % 1048576 =
          packKickers (specKickersRaw (handRanks [48, 49, 44, 45, 40]))) :=
  ⟨by unfold ValidHand; decide, by decide,
    kicker_ordering [48, 49, 44, 45, 40] (by unfold ValidHand; decide) (by decide)⟩

/-- Claim C8: under the arithmetic multiplexer semantics the inlined circuit
copy of `evaluate_hand` returns the same score as the standalone version on
every valid hand, but the two are not equivalent as Rust programs: under
bounds-checked indexing the standalone version still returns its score while
the circuit copy's kicker expansion faults on the valid hand
`[51, 47, 21, 10, 3]`. -/
theorem circuit_matches_standalone (hand : List Nat) (hv : ValidHand hand) :
    evaluate_hand_circuit hand = evaluate_hand hand ∧
      ValidHand [51, 47, 21, 10, 3] ∧
      evaluate_hand_checked [51, 47, 21, 10, 3] =
        some (evaluate_hand [51, 47, 21, 10, 3]) ∧
      evaluate_hand_circuit_checked [51, 47, 21, 10, 3] = none :=
  ⟨circuit_eq hand hv, by unfold ValidHand; decide,
    evaluate_hand_checked_total [51, 47, 21, 10, 3], by decide⟩

theorem circuit_matches_standalone_witness :
    ValidHand [51, 47, 21, 10, 3] ∧
      (evaluate_hand_circuit [51, 47, 21, 10, 3] = evaluate_hand [51, 47, 21, 10, 3] ∧
        ValidHand [51, 47, 21, 10, 3] ∧
        evaluate_hand_checked [51, 47, 21, 10, 3] =
          some (evaluate_hand [51, 47, 21, 10, 3]) ∧
        evaluate_hand_circuit_checked [51, 47, 21, 10, 3] = none) :=
  ⟨by unfold ValidHand; decide,
    circuit_matches_standalone [51, 47, 21, 10, 3] (by unfold ValidHand; decide)⟩

/-- Claim C9: `evaluate_hand` and the circuit copy are invariant under
permutation of the five card positions of a valid hand. -/
theorem eval_perm_invariant (A B : List Nat) (hv : ValidHand A) (hp : A.Perm B) :
    evaluate_hand A = evaluate_hand B ∧
      evaluate_hand_circuit A = evaluate_hand_circuit B := by
  have hlenB : B.length = 5 := by
    rw [← hp.length_eq]
    exact hv.1
  have hsort : sortDesc (handRanks A) = sortDesc (handRanks B) :=
    sortDesc_congr (hp.map rankOf)
  have hfl : isFlush A = isFlush B := by
    rw [Bool.eq_iff_iff, isFlush_iff_allEq A hv.1, isFlush_iff_allEq B hlenB]
    constructor
    · intro h x hx y hy
      exact h x (hp.mem_iff.mpr hx) y (hp.mem_iff.mpr hy)
    · intro h x hx y hy
      exact h x (hp.mem_iff.mp hx) y (hp.mem_iff.mp hy)
  constructor
  · show evalFromSorted (sortDesc (handRanks A)) (isFlush A) =
      evalFromSorted (sortDesc (handRanks B)) (isFlush B)
    rw [hsort, hfl]
  · show evalCircuitFromSorted (sortDesc (handRanks A)) (isFlush A) =
      evalCircuitFromSorted (sortDesc (handRanks B)) (isFlush B)
    rw [hsort, hfl]

theorem eval_perm_invariant_witness :
    ValidHand [2, 7, 11, 19, 23] ∧
      ([2, 7, 11, 19, 23] : List Nat).Perm [23, 19, 11, 7, 2] ∧
      (evaluate_hand [2, 7, 11, 19, 23] = evaluate_hand [23, 19, 11, 7, 2] ∧
        evaluate_hand_circuit [2, 7, 11, 19, 23] =
          evaluate_hand_circuit [23, 19, 11, 7, 2]) :=
  ⟨by unfold ValidHand; decide, by decide,
    eval_perm_invariant [2, 7, 11, 19, 23] [23, 19, 11, 7, 2]
      (by unfold ValidHand; decide) (by decide)⟩

/-- Claim C10: the score of every valid hand fits in the low 24 bits, its
category field (bits 20-23) holds a value at most 8, and each of the five
4-bit kicker nibbles holds a rank value at most 12, so the packed fields
never overlap. -/
theorem score_field_layout (hand : List Nat) (hv : ValidHand hand) :
    evaluate_hand hand < 16777216 ∧
      evaluate_hand hand / 1048576 ≤ 8 ∧
      evaluate_hand hand / 65536 % 16 ≤ 12 ∧
      evaluate_hand hand / 4096 % 16 ≤ 12 ∧
      evaluate_hand hand / 256 % 16 ≤ 12 ∧
      evaluate_hand hand / 16 % 16 ≤ 12 ∧
      evaluate_hand hand % 16 ≤ 12 := by
  obtain ⟨hE, hcat8, k1, k2, k3, k4, k5, hks, hb1, hb2, hb3, hb4, hb5⟩ :=
    eval_spec_form hand hv
  rw [hE, hks]
  rw [show packKickers [k1, k2, k3, k4, k5] =
    k1 * 65536 + k2 * 4096 + k3 * 256 + k4 * 16 + k5 from rfl]
  refine ⟨by omega, by omega, by omega, by omega, by omega, by omega, by omega⟩

theorem score_field_layout_witness :
    ValidHand [1, 6, 11, 16, 21] ∧
      (evaluate_hand [1, 6, 11, 16, 21] < 16777216 ∧
        evaluate_hand [1, 6, 11, 16, 21] / 1048576 ≤ 8 ∧
        evaluate_hand [1, 6, 11, 16, 21] / 65536 % 16 ≤ 12 ∧
        evaluate_hand [1, 6, 11, 16, 21] / 4096 % 16 ≤ 12 ∧
        evaluate_hand [1, 6, 11, 16, 21] / 256 % 16 ≤ 12 ∧
        evaluate_hand [1, 6, 11, 16, 21] / 16 % 16 ≤ 12 ∧
        evaluate_hand [1, 6, 11, 16, 21] % 16 ≤ 12) :=
  ⟨by unfold ValidHand; decide,
    score_field_layout [1, 6, 11, 16, 21] (by unfold ValidHand; decide)⟩
